import Mathlib

/-!
Verification development for the Caixa property-listing scraper
(TypeScript sources under src/). The TypeScript code is shallowly embedded:
pure string manipulation is modelled over `List Char`, JavaScript numbers by
exact rationals (`ℚ`, adequate on the small integral values the code handles),
fallible code by `Except Unit`, and DOM queries made through cheerio by
oracle fields on abstract document structures (one field per query the code
performs). Stateful or timed code (the rate limiter) is modelled by explicit
state passing with an exact-sleep clock.
-/

namespace Scraper

/-! ## JavaScript string primitives (over `List Char`) -/

/-- Whitespace recognised by JS `String.prototype.trim` and the regex class
of whitespace characters (the characters that occur in practice). -/
def jsIsWs (c : Char) : Bool :=
  c = ' ' || c = '\t' || c = '\n' || c = '\r' || c = '\x0b' || c = '\x0c' || c = '\u00A0'

/-- Model of `String.prototype.trim` on character lists. -/
def trimChars (cs : List Char) : List Char :=
  ((cs.dropWhile jsIsWs).reverse.dropWhile jsIsWs).reverse

/-- Model of `String.prototype.trim`. -/
def jsTrim (s : String) : String := String.mk (trimChars s.data)

/-- Case folding used to model the `i` regex flag and `toLowerCase`:
ASCII letters plus the accented letters occurring in the source literals. -/
def jsToLowerChar (c : Char) : Char :=
  if 'A' ≤ c ∧ c ≤ 'Z' then Char.ofNat (c.toNat + 32)
  else if c = 'Á' then 'á'
  else if c = 'À' then 'à'
  else if c = 'Â' then 'â'
  else if c = 'Ã' then 'ã'
  else if c = 'Ç' then 'ç'
  else if c = 'É' then 'é'
  else if c = 'Ê' then 'ê'
  else if c = 'Í' then 'í'
  else if c = 'Ó' then 'ó'
  else if c = 'Ô' then 'ô'
  else if c = 'Õ' then 'õ'
  else if c = 'Ú' then 'ú'
  else c

/-- Model of `String.prototype.toUpperCase` on the same character range. -/
def jsToUpperChar (c : Char) : Char :=
  if 'a' ≤ c ∧ c ≤ 'z' then Char.ofNat (c.toNat - 32)
  else if c = 'á' then 'Á'
  else if c = 'à' then 'À'
  else if c = 'â' then 'Â'
  else if c = 'ã' then 'Ã'
  else if c = 'ç' then 'Ç'
  else if c = 'é' then 'É'
  else if c = 'ê' then 'Ê'
  else if c = 'í' then 'Í'
  else if c = 'ó' then 'Ó'
  else if c = 'ô' then 'Ô'
  else if c = 'õ' then 'Õ'
  else if c = 'ú' then 'Ú'
  else c

/-- Does `hay` start with `needle`? -/
def startsWithChars : List Char → List Char → Bool
  | _, [] => true
  | [], _ :: _ => false
  | h :: hs, n :: ns => h = n && startsWithChars hs ns

/-- Case-insensitive variant of `startsWithChars`. -/
def startsWithCi (hay needle : List Char) : Bool :=
  startsWithChars (hay.map jsToLowerChar) (needle.map jsToLowerChar)

/-- Model of `String.prototype.includes` (substring containment). -/
def containsSub : List Char → List Char → Bool
  | [], needle => startsWithChars [] needle
  | h :: t, needle => startsWithChars (h :: t) needle || containsSub t needle

/-- First index at which the predicate on the remaining suffix holds
(used to model `indexOf` and `search`). -/
def findIdxSubGo (p : List Char → Bool) : ℕ → List Char → Option ℕ
  | i, [] => if p [] then some i else none
  | i, c :: cs => if p (c :: cs) then some i else findIdxSubGo p (i + 1) cs

/-- Model of `String.prototype.indexOf` for a literal substring. -/
def findIdxSub (needle cs : List Char) : Option ℕ :=
  findIdxSubGo (fun rest => startsWithChars rest needle) 0 cs

/-- Model of `s.search(/lit/i)`: first index of a case-insensitive literal. -/
def findIdxSubCi (needle cs : List Char) : Option ℕ :=
  findIdxSubGo (fun rest => startsWithCi rest needle) 0 cs

/-- Helper for `collapseWs`: the flag records whether the previous character
was whitespace (a maximal whitespace run becomes a single space). -/
def collapseWsGo : Bool → List Char → List Char
  | _, [] => []
  | prevWs, c :: cs =>
    if jsIsWs c then
      if prevWs then collapseWsGo true cs else ' ' :: collapseWsGo true cs
    else c :: collapseWsGo false cs

/-- Model of `.replace(/\s+/g, " ").trim()`, the whitespace normalisation the
parsers apply to cheerio text. -/
def collapseWs (cs : List Char) : List Char :=
  trimChars (collapseWsGo false cs)

/-- First occurrence split on a literal separator: returns the part before the
separator and the remainder after it. -/
def findSplitGo (sep : List Char) : List Char → List Char → Option (List Char × List Char)
  | acc, [] => if startsWithChars [] sep then some (acc.reverse, []) else none
  | acc, c :: cs =>
    if startsWithChars (c :: cs) sep then some (acc.reverse, (c :: cs).drop sep.length)
    else findSplitGo sep (c :: acc) cs

/-- Fuelled worker for `splitOnSub`; the fuel bounds the number of splits,
and `cs.length + 1` fuel is always sufficient for a nonempty separator. -/
def splitOnSubFuel (sep : List Char) : ℕ → List Char → List (List Char)
  | 0, cs => [cs]
  | fuel + 1, cs =>
    match findSplitGo sep [] cs with
    | none => [cs]
    | some (before, after) => before :: splitOnSubFuel sep fuel after

/-- Model of `String.prototype.split` with a nonempty literal separator. -/
def splitOnSub (sep cs : List Char) : List (List Char) :=
  splitOnSubFuel sep (cs.length + 1) cs

/-- Model of `Array.prototype.join("\n")` over character lists. -/
def joinNL : List (List Char) → List Char
  | [] => []
  | [l] => l
  | l :: l2 :: rest => l ++ '\n' :: joinNL (l2 :: rest)

/-! ## JavaScript `Number` conversion of strings

Model of ECMAScript string-to-number conversion by exact rationals. Exact
rational arithmetic agrees with 64-bit floats on every value this program
converts (small decimal integers and money amounts); the float
representation itself is not modelled. -/

/-- Result of converting a string with JS `Number`. -/
inductive JsNum where
  | nan : JsNum
  | inf (neg : Bool) : JsNum
  | val (q : ℚ) : JsNum
deriving DecidableEq

/-- Numeric value of a list of decimal digits. -/
def digitsVal (ds : List Char) : ℕ :=
  ds.foldl (fun a c => a * 10 + (c.toNat - 48)) 0

/-- Value of a digit in bases up to 16. -/
def hexDigitVal (c : Char) : ℕ :=
  if '0' ≤ c ∧ c ≤ '9' then c.toNat - 48
  else if 'a' ≤ c ∧ c ≤ 'f' then c.toNat - 87
  else if 'A' ≤ c ∧ c ≤ 'F' then c.toNat - 55
  else 0

/-- Digit predicate for a radix literal. -/
def isRadixDigit (radix : ℕ) : Char → Bool :=
  fun c =>
    if radix = 16 then c.isDigit || ('a' ≤ c ∧ c ≤ 'f') || ('A' ≤ c ∧ c ≤ 'F')
    else if radix = 8 then '0' ≤ c ∧ c ≤ '7'
    else if radix = 2 then c = '0' ∨ c = '1'
    else c.isDigit

/-- Value of a (nonempty, all-digit) radix literal body. -/
def parseRadix (radix : ℕ) (ds : List Char) : Option ℚ :=
  if ds ≠ [] ∧ ds.all (isRadixDigit radix) then
    some ((ds.foldl (fun a c => a * radix + hexDigitVal c) 0 : ℕ) : ℚ)
  else none

/-- Digit run of an exponent (shared tail of the three sign cases). -/
def expDigits (d : List Char) (neg : Bool) : Option ℤ :=
  if d ≠ [] ∧ d.all Char.isDigit then
    some (if neg then -((digitsVal d : ℕ) : ℤ) else ((digitsVal d : ℕ) : ℤ))
  else none

/-- Exponent tail of a decimal literal: optional sign then one or more
digits, consuming the whole remaining input. -/
def parseExpTail (cs : List Char) : Option ℤ :=
  match cs with
  | [] => none
  | c :: d =>
    if c = '+' then expDigits d false
    else if c = '-' then expDigits d true
    else expDigits (c :: d) false

/-- After the mantissa: either end of input or an exponent part. -/
def parseExpOrEnd (cs : List Char) : Option ℤ :=
  match cs with
  | [] => some 0
  | c :: t => if c = 'e' ∨ c = 'E' then parseExpTail t else none

/-- Exact value of a decimal mantissa scaled by a power of ten
(`mant * 10 ^ e`), built with `Rat.divInt` so it evaluates by reduction. -/
def decExpValue (mant : ℤ) (e : ℤ) : ℚ :=
  if 0 ≤ e then ((mant * 10 ^ e.toNat : ℤ) : ℚ) else Rat.divInt mant (10 ^ (-e).toNat)

/-- Unsigned decimal literal (digits, optional fraction, optional exponent),
consuming the whole input. -/
def parseDec (cs : List Char) : Option ℚ :=
  let intPart := cs.takeWhile Char.isDigit
  let rest := cs.drop intPart.length
  match rest with
  | [] => if intPart = [] then none else some ((digitsVal intPart : ℕ) : ℚ)
  | r :: rest2 =>
    if r = '.' then
      let frac := rest2.takeWhile Char.isDigit
      let rest3 := rest2.drop frac.length
      if intPart = [] ∧ frac = [] then none
      else
        (parseExpOrEnd rest3).map fun e =>
          decExpValue ((digitsVal (intPart ++ frac) : ℕ) : ℤ) (e - (frac.length : ℤ))
    else if r = 'e' ∨ r = 'E' then
      if intPart = [] then none
      else (parseExpTail rest2).map fun e => decExpValue ((digitsVal intPart : ℕ) : ℤ) e
    else none

/-- Decimal literal or `Infinity`, with the sign already split off. -/
def decOrInf (body : List Char) (neg : Bool) : JsNum :=
  if body = "Infinity".data then .inf neg
  else
    match parseDec body with
    | some q => .val (if neg then -q else q)
    | none => .nan

/-- Signed decimal body (after stripping whitespace): `Infinity`, or a
decimal literal, with optional leading sign. -/
def parseSignedDec (cs : List Char) : JsNum :=
  match cs with
  | [] => decOrInf [] false
  | c :: body =>
    if c = '+' then decOrInf body false
    else if c = '-' then decOrInf body true
    else decOrInf (c :: body) false

/-- JS `Number` applied to an already-trimmed character list: empty means 0,
`0x`/`0o`/`0b` radix literals (no sign allowed), otherwise a signed decimal
literal or `Infinity`; anything else is NaN. -/
def jsStrToNumberCore (cs : List Char) : JsNum :=
  match cs with
  | [] => .val 0
  | _ =>
    if startsWithChars cs ['0', 'x'] || startsWithChars cs ['0', 'X'] then
      match parseRadix 16 (cs.drop 2) with
      | some q => .val q
      | none => .nan
    else if startsWithChars cs ['0', 'o'] || startsWithChars cs ['0', 'O'] then
      match parseRadix 8 (cs.drop 2) with
      | some q => .val q
      | none => .nan
    else if startsWithChars cs ['0', 'b'] || startsWithChars cs ['0', 'B'] then
      match parseRadix 2 (cs.drop 2) with
      | some q => .val q
      | none => .nan
    else parseSignedDec cs

/-- Model of `Number(s)` for a string argument. -/
def jsNumberOfString (s : String) : JsNum :=
  jsStrToNumberCore (trimChars s.data)

/-! ## src/models.ts -/

/-- Model of `trimmed.replace(",", ".")`: only the first comma is replaced. -/
def replaceFirstComma : List Char → List Char
  | [] => []
  | c :: cs => if c = ',' then '.' :: cs else c :: replaceFirstComma cs

/-- Embedding of `parseBrazilianNumber` (src/models.ts): trim, return
`undefined` on empty, delete every dot, replace the first comma by a dot,
convert with `Number`, and keep only finite results. -/
def parseBrazilianNumber (raw : String) : Option ℚ :=
  let trimmed := trimChars raw.data
  if trimmed = [] then none
  else
    let normalized := replaceFirstComma (trimmed.filter (fun c => c ≠ '.'))
    match jsStrToNumberCore normalized with
    | .val q => some q
    | _ => none

/-- Model of `raw.replace(/R\$\s*/i, "")`: delete the first occurrence of
`R$` (case-insensitive `R`) together with the whitespace right after it. -/
def removeBRLMark : List Char → List Char
  | [] => []
  | c :: cs =>
    if c = 'R' ∨ c = 'r' then
      match cs with
      | '$' :: rest => rest.dropWhile jsIsWs
      | _ => c :: removeBRLMark cs
    else c :: removeBRLMark cs

/-- Embedding of `parseBRL` (src/models.ts). -/
def parseBRL (raw : String) : Option ℚ :=
  parseBrazilianNumber (String.mk (trimChars (removeBRLMark raw.data)))

/-! ## src/caixa/httpClient.ts -/

/-- Embedding of the `HttpResponse` shape: status plus body text. -/
structure HttpResponse where
  status : ℕ
  text : String
deriving DecidableEq

/-- Embedding of `isRetryableStatus`. -/
def isRetryableStatus (status : ℕ) : Bool :=
  status = 429 || (500 ≤ status && status ≤ 599)

/-- Backoff base used before attempt `attempt + 1`:
`Math.min(30_000, 750 * Math.pow(2, attempt))`. -/
def backoffBase (attempt : ℕ) : ℕ :=
  min 30000 (750 * 2 ^ attempt)

/-- Model of `Math.floor(ms * 0.2)` in `jitter`. On every base the client
passes (multiples of five below 2^50) the float computation is exact and
equals `ms / 5`. -/
def jitterDelta (ms : ℕ) : ℕ := ms / 5

/-- Embedding of `jitter` with the `Math.random()` draw `rand ∈ [0,1)` made
explicit: `ms - delta + Math.floor(rand * (delta * 2 + 1))`. -/
def jitter (ms : ℕ) (rand : ℚ) : ℤ :=
  (ms : ℤ) - (jitterDelta ms : ℤ) + ⌊rand * (2 * (jitterDelta ms : ℚ) + 1)⌋

/-- Fetch start time of one `RateLimiter.schedule` admission under an
exact-sleep clock: the admission reads `Date.now() = now`, computes
`waitMs = max 0 (nextAllowedAt - now)` and starts the fetch after sleeping
`waitMs`, i.e. at `now + waitMs` (natural subtraction models the `max 0`). -/
def scheduleStart (nextAllowedAt now : ℕ) : ℕ :=
  now + (nextAllowedAt - now)

/-- The `nextAllowedAt` value recorded by one admission:
`Math.max(nextAllowedAt, now) + minDelayMs`. -/
def scheduleNext (minDelayMs nextAllowedAt now : ℕ) : ℕ :=
  max nextAllowedAt now + minDelayMs

/-- Fetch start times of a chain of admissions (the promise chain serialises
them): `nows` lists the `Date.now()` reading of each admission in order,
`st` is the current `nextAllowedAt` state (initially 0). -/
def scheduleTrace (minDelayMs : ℕ) : ℕ → List ℕ → List ℕ
  | _, [] => []
  | st, now :: rest =>
    scheduleStart st now :: scheduleTrace minDelayMs (scheduleNext minDelayMs st now) rest

/-- Embedding of the retry loop of `HttpClient.request`. Each list entry is
the outcome of one `attemptOnce` call: `some r` a settled response, `none` a
thrown fetch/timeout error. The `last` accumulator is the last response
seen; after the loop the code returns `last` when it exists and otherwise
throws. -/
def requestResult : List (Option HttpResponse) → Option HttpResponse → Except Unit HttpResponse
  | [], some r => .ok r
  | [], none => .error ()
  | some r :: rest, _ =>
    if isRetryableStatus r.status then requestResult rest (some r) else .ok r
  | none :: rest, last => requestResult rest last

/-- Number of attempts the loop makes on a given outcome list (it stops
early only on a non-retryable response). -/
def requestAttempts : List (Option HttpResponse) → ℕ
  | [] => 0
  | some r :: rest => if isRetryableStatus r.status then requestAttempts rest + 1 else 1
  | none :: rest => requestAttempts rest + 1

/-- Embedding of `HttpClient.request`: the loop runs `attempt = 0..retries`,
so at most `retries + 1` outcomes of the (conceptually unbounded) attempt
oracle are consumed. -/
def httpRequest (retries : ℕ) (outcomes : List (Option HttpResponse)) :
    Except Unit HttpResponse × ℕ :=
  (requestResult (outcomes.take (retries + 1)) none,
    requestAttempts (outcomes.take (retries + 1)))

/-! ## src/parsers/parseSearchResponse.ts -/

/-- Embedding of `parseIntStrict`: trim the (possibly missing) attribute
value, convert with `Number`, and fail unless the result is a finite
integer. -/
def parseIntStrict (raw : Option String) : Except Unit ℤ :=
  let v := trimChars (raw.getD "").data
  match jsStrToNumberCore v with
  | .val q => if q.den = 1 then .ok q.num else .error ()
  | _ => .error ()

/-- Abstract search-response document: the attribute values the parser
queries through cheerio. `imovVals.get? (i-1)` is the `value` attribute of
the input `hdnImov{i}` (`none` when the input is absent; indices beyond the
list are likewise absent). -/
structure SearchDoc where
  qtdPagVal : Option String
  qtdRegistrosVal : Option String
  filtroVal : Option String
  imovVals : List (Option String)

/-- JS truthiness of an optional attribute value (`!v` is true for a missing
attribute and for the empty string). -/
def jsTruthyStr (o : Option String) : Bool :=
  match o with
  | some s => s ≠ ""
  | none => false

/-- The attribute value of `hdnImov{i+1}` (element `i` of `imovVals`). -/
def imovValAt (doc : SearchDoc) (i : ℕ) : Option String :=
  (doc.imovVals.get? i).join

/-- Embedding of the `hdnImov{i}` collection loop: read values for
`i = 1, 2, ...` and stop at the first missing or empty one. -/
def imovTokens (doc : SearchDoc) : List String :=
  (doc.imovVals.takeWhile jsTruthyStr).filterMap id

/-- Embedding of the `CaixaSearchResult` shape (src/models.ts). -/
structure CaixaSearchResult where
  hdnImovByPage : List String
  qtdPag : ℤ
  qtdRegistros : ℤ
  hdnFiltro : Option String
deriving DecidableEq

/-- Embedding of `parseSearchResponse`. -/
def parseSearchResponse (doc : SearchDoc) : Except Unit CaixaSearchResult :=
  match parseIntStrict doc.qtdPagVal with
  | .error e => .error e
  | .ok qtdPag =>
    match parseIntStrict doc.qtdRegistrosVal with
    | .error e => .error e
    | .ok qtdRegistros =>
      let hdnFiltro := doc.filtroVal.map jsTrim
      let toks := imovTokens doc
      if toks = [] then .error ()
      else
        .ok
          { hdnImovByPage := toks
            qtdPag := if 0 < qtdPag then qtdPag else (toks.length : ℤ)
            qtdRegistros := qtdRegistros
            hdnFiltro :=
              match hdnFiltro with
              | some s => if s ≠ "" then some s else none
              | none => none }

/-! ## Regex-lite matchers

Each regex in the parsers is embedded as a try-at-position function plus a
leftmost scan, following the backtracking semantics of the concrete pattern
(every pattern here is a sequence of literals, `\s*`/`\s+` gaps and greedy
character-class captures, for which maximal-munch plus leftmost scan is
exact). -/

/-- Leftmost-match scan: try the pattern at each successive start position. -/
def scanFirst {α : Type} (f : List Char → Option α) : List Char → Option α
  | [] => f []
  | c :: cs =>
    match f (c :: cs) with
    | some r => some r
    | none => scanFirst f cs

/-- Consume a literal, returning the remainder. -/
def eatLit (lit cs : List Char) : Option (List Char) :=
  if startsWithChars cs lit then some (cs.drop lit.length) else none

/-- Consume a case-insensitive literal. -/
def eatLitCi (lit cs : List Char) : Option (List Char) :=
  if startsWithCi cs lit then some (cs.drop lit.length) else none

/-- Consume `\s*`. -/
def eatWs (cs : List Char) : List Char := cs.dropWhile jsIsWs

/-- Consume `\s+`. -/
def eatWsPlus (cs : List Char) : Option (List Char) :=
  match cs with
  | c :: rest => if jsIsWs c then some (rest.dropWhile jsIsWs) else none
  | [] => none

/-- Consume a greedy nonempty character-class run, returning capture and
remainder. -/
def eatClassPlus (p : Char → Bool) (cs : List Char) : Option (List Char × List Char) :=
  let run := cs.takeWhile p
  if run = [] then none else some (run, cs.drop run.length)

/-- Character class `[\d\.\,]`. -/
def moneyChar (c : Char) : Bool :=
  c.isDigit || c = '.' || c = ','

/-- Model of `m?.[1]?.trim() || undefined` applied to a capture. -/
def firstMatchNorm (o : Option String) : Option String :=
  match o with
  | some s =>
    let t := trimChars s.data
    if t = [] then none else some (String.mk t)
  | none => none

/-- Try `/detalhe_imovel\((\d+)\)/` at the current position. -/
def tryDetalheId (cs : List Char) : Option String :=
  match eatLit "detalhe_imovel(".data cs with
  | none => none
  | some r1 =>
    match eatClassPlus Char.isDigit r1 with
    | none => none
    | some (ds, r2) =>
      match eatLit ")".data r2 with
      | none => none
      | some _ => some (String.mk ds)

/-- Try `label ++ \s* ++ R$ ++ \s* ++ ([\d\.\,]+)` (case-insensitive) at the
current position; shared shape of the two money regexes. -/
def tryMoneyAfterLabel (label : List Char) (cs : List Char) : Option String :=
  match eatLitCi label cs with
  | none => none
  | some r1 =>
    match eatLitCi "R$".data (eatWs r1) with
    | none => none
    | some r2 =>
      match eatClassPlus moneyChar (eatWs r2) with
      | none => none
      | some (run, _) => some (String.mk run)

/-- Try `/desconto de\s*([\d\.\,]+)\s*%/i` at the current position. -/
def tryDesconto (cs : List Char) : Option String :=
  match eatLitCi "desconto de".data cs with
  | none => none
  | some r1 =>
    match eatClassPlus moneyChar (eatWs r1) with
    | none => none
    | some (run, r2) =>
      match eatLit "%".data (eatWs r2) with
      | none => none
      | some _ => some (String.mk run)

/-- Worker for `/^(.+?)\s*-\s*/`: grow the lazy capture one character at a
time and stop as soon as the rest starts with `\s*` then a dash. -/
def tipoImovelGo (acc : List Char) : List Char → Option String
  | [] => none
  | c :: cs =>
    if startsWithChars (eatWs cs) "-".data then some (String.mk (c :: acc).reverse)
    else tipoImovelGo (c :: acc) cs

/-- Match `/^(.+?)\s*-\s*/` against the whole line (anchored). -/
def tipoImovelMatch (cs : List Char) : Option String :=
  tipoImovelGo [] cs

/-- Try the area regex (a dash, `\s*`, a `[\d\.\,]+` capture, `\s*`, then
`m2`, case-insensitive) at the current position. -/
def tryArea (cs : List Char) : Option String :=
  match eatLit "-".data cs with
  | none => none
  | some r1 =>
    match eatClassPlus moneyChar (eatWs r1) with
    | none => none
    | some (run, r2) =>
      match eatLitCi "m2".data (eatWs r2) with
      | none => none
      | some _ => some (String.mk run)

/-- Try `, ++ \s* ++ (\d+) ++ \s* ++ word` (case-insensitive word), the
shared shape of the `quarto` and `vaga` regexes. -/
def tryCountBefore (word : List Char) (cs : List Char) : Option String :=
  match eatLit ",".data cs with
  | none => none
  | some r1 =>
    match eatClassPlus Char.isDigit (eatWs r1) with
    | none => none
    | some (run, r2) =>
      match eatLitCi word (eatWs r2) with
      | none => none
      | some _ => some (String.mk run)

/-! ## src/parsers/parseListPage.ts — list page -/

/-- First-occurrence split where the separator is a pattern (consume
function); returns the part before the match and the input right after it. -/
def findPatSplitGo (pat : List Char → Option (List Char)) :
    List Char → List Char → Option (List Char × List Char)
  | acc, [] =>
    match pat [] with
    | some rest => some (acc.reverse, rest)
    | none => none
  | acc, c :: cs =>
    match pat (c :: cs) with
    | some rest => some (acc.reverse, rest)
    | none => findPatSplitGo pat (c :: acc) cs

/-- Fuelled split on a pattern separator (model of `String.split(regex)`). -/
def splitPatFuel (pat : List Char → Option (List Char)) : ℕ → List Char → List (List Char)
  | 0, cs => [cs]
  | fuel + 1, cs =>
    match findPatSplitGo pat [] cs with
    | none => [cs]
    | some (before, after) => before :: splitPatFuel pat fuel after

/-- Split on a pattern separator that always consumes at least one
character; `cs.length + 1` fuel then suffices. -/
def splitPat (pat : List Char → Option (List Char)) (cs : List Char) : List (List Char) :=
  splitPatFuel pat (cs.length + 1) cs

/-- Separator pattern of the split regex (the literal
`Número do imóvel:` case-insensitively, then `\s*`). -/
def numeroSplitPat (cs : List Char) : Option (List Char) :=
  (eatLitCi "Número do imóvel:".data cs).map eatWs

/-- Model of JS `Number` restricted to the nonempty all-digit captures it is
applied to in the list parser (on those the conversion is always finite; the
fallback 0 branch is unreachable there). -/
def jsNumberValue (s : String) : ℚ :=
  match jsNumberOfString s with
  | .val q => q
  | _ => 0

/-- Abstract result card (`li.group-block-item`): one field per cheerio
query the parser performs on the card.
`onclickDetalhe` is the `onclick` attribute of the first descendant matching
the selector with substring `detalhe_imovel`, `onclickDetalheImg` the same
restricted to `img` elements, `anchorDetalheText` the text of the first such
anchor, `contadorBoldText` the text of the first bold element under
`div[id^='divContador']`, `cardText` the card's full text, and
`detailsRawLines` the text lines of the first `font` block whose style
contains `0.75em` (after the source turns `br` tags into newlines and
strips markup). -/
structure ListCard where
  onclickDetalhe : Option String
  onclickDetalheImg : Option String
  anchorDetalheText : String
  contadorBoldText : String
  cardText : String
  detailsRawLines : List String
deriving DecidableEq

/-- Embedding of the `ImovelListItem` shape (src/models.ts); absent optional
object fields are `none`. -/
structure ImovelListItem where
  imovelId : String
  uf : String
  cidadeId : String
  titulo : String
  modalidade : Option String
  tipoImovel : Option String
  areaUtilM2 : Option ℚ
  quartos : Option ℚ
  vagas : Option ℚ
  valorAvaliacao : Option ℚ
  valorMinimo : Option ℚ
  descontoPercent : Option ℚ
  enderecoRaw : Option String
  observacoesRaw : Option String
  page : ℕ
deriving DecidableEq

/-- Model of the conditional spread `...(x ? \x7b x \x7d : \x7b\x7d)`: a
field is added only when the string is truthy. -/
def truthyOpt (o : Option String) : Option String :=
  match o with
  | some s => if s = "" then none else some s
  | none => none

/-- The `onclick` value the card body works with:
`find(selector).attr ?? find(img selector).attr ?? ""`. -/
def cardOnclick (card : ListCard) : String :=
  match card.onclickDetalhe with
  | some s => s
  | none =>
    match card.onclickDetalheImg with
    | some s => s
    | none => ""

/-- Embedding of the per-card body of `parseListPageHtml`: returns `none`
exactly when the card is skipped (no `detalhe_imovel(N)` id found). -/
def parseListCard (uf cidadeId : String) (page : ℕ) (card : ListCard) : Option ImovelListItem :=
  let onclick := cardOnclick card
  match firstMatchNorm (scanFirst tryDetalheId onclick.data) with
  | none => none
  | some imovelId =>
    let titulo := String.mk (collapseWs card.anchorDetalheText.data)
    let modalidade :=
      (let t := collapseWs card.contadorBoldText.data
       if t = [] then none else some (String.mk t))
    let cardTextC := collapseWs card.cardText.data
    let valorAvaliacao :=
      (firstMatchNorm (scanFirst (tryMoneyAfterLabel "Valor de avaliação:".data) cardTextC)).bind
        parseBRL
    let valorMinimo :=
      (firstMatchNorm (scanFirst (tryMoneyAfterLabel "Valor mínimo de venda:".data) cardTextC)).bind
        parseBRL
    let descontoPercent :=
      (firstMatchNorm (scanFirst tryDesconto cardTextC)).bind parseBrazilianNumber
    let detailsText :=
      (card.detailsRawLines.map
        (fun l => String.mk (trimChars (l.data.filter (fun c => c ≠ '\r'))))).filter
        (fun l => l ≠ "")
    let firstLine := (detailsText.headD "").data
    let tipoImovel := firstMatchNorm (tipoImovelMatch firstLine)
    let areaUtilM2 := (firstMatchNorm (scanFirst tryArea firstLine)).bind parseBrazilianNumber
    let quartos :=
      (firstMatchNorm (scanFirst (tryCountBefore "quarto".data) firstLine)).map jsNumberValue
    let vagas :=
      (firstMatchNorm (scanFirst (tryCountBefore "vaga".data) firstLine)).map jsNumberValue
    let modalidadeLinha :=
      (let parts :=
        ((splitOnSub " - ".data firstLine).map (fun p => String.mk (trimChars p))).filter
          (fun p => p ≠ "")
       if 2 ≤ parts.length then parts.getLast? else none)
    let joined := joinNL (detailsText.map String.data)
    let afterNumero :=
      match (splitPat numeroSplitPat joined).get? 1 with
      | some a => if a = [] then none else some a
      | none => none
    let enderecoObsRaw :=
      afterNumero.map (fun a => trimChars (joinNL ((splitOnSub ['\n'] a).drop 1)))
    let enderecoObs :=
      match enderecoObsRaw with
      | some t => if t = [] then none else some t
      | none => none
    let enderecoPair :=
      match enderecoObs with
      | none => ((none : Option String), (none : Option String))
      | some t =>
        match findIdxSubCi "Despesas do imóvel".data t with
        | none => (some (String.mk t), none)
        | some idx =>
          (some (String.mk (trimChars (t.take idx))), some (String.mk (trimChars (t.drop idx))))
    let modalidadeFinal :=
      (match modalidadeLinha with
       | some s => if s ≠ "" then some s else modalidade
       | none => modalidade).map jsTrim
    some
      { imovelId := imovelId
        uf := uf
        cidadeId := cidadeId
        titulo := titulo
        modalidade := truthyOpt modalidadeFinal
        tipoImovel := truthyOpt tipoImovel
        areaUtilM2 := areaUtilM2
        quartos := quartos
        vagas := vagas
        valorAvaliacao := valorAvaliacao
        valorMinimo := valorMinimo
        descontoPercent := descontoPercent
        enderecoRaw := truthyOpt enderecoPair.1
        observacoesRaw := truthyOpt enderecoPair.2
        page := page }

/-- Embedding of `parseListPageHtml`: the cheerio `each` loop over
`li.group-block-item` pushes one item per card unless the card is skipped. -/
def parseListPageHtml (cards : List ListCard) (uf cidadeId : String) (page : ℕ) :
    List ImovelListItem :=
  cards.filterMap (parseListCard uf cidadeId page)

/-! ## src/parsers/parseListPage.ts — detail page -/

mutual

/-- Token accumulation for `String.split(/[,\s]+/)`: a maximal run of
class characters separates tokens. -/
def splitRunsGo (p : Char → Bool) (acc : List Char) : List Char → List (List Char)
  | [] => [acc.reverse]
  | c :: cs =>
    if p c then acc.reverse :: splitRunsSkip p cs
    else splitRunsGo p (c :: acc) cs

/-- Separator-run skipping for `splitRunsGo`; a trailing run yields a final
empty token, as JS `split` does. -/
def splitRunsSkip (p : Char → Bool) : List Char → List (List Char)
  | [] => [[]]
  | c :: cs =>
    if p c then splitRunsSkip p cs
    else splitRunsGo p [c] cs

end

/-- Model of `String.split(re)` for a character-class-run separator. -/
def splitRuns (p : Char → Bool) (cs : List Char) : List (List Char) :=
  splitRunsGo p [] cs

/-- Case-insensitive substring test (model of `/lit/i.test(s)` for literal
patterns and of `includes` after case folding). -/
def containsSubCi (hay needle : List Char) : Bool :=
  containsSub (hay.map jsToLowerChar) (needle.map jsToLowerChar)

/-- Consume one character satisfying the class. -/
def eatCharClass (p : Char → Bool) (cs : List Char) : Option (List Char) :=
  match cs with
  | c :: rest => if p c then some rest else none
  | [] => none

/-- Try the pattern of `/ExibeDoc\('([^']+)'\)/` at the current position:
the literal `ExibeDoc('`, a nonempty run of non-quote characters, then a
quote and a closing parenthesis. -/
def tryExibeDocSq (cs : List Char) : Option String :=
  match eatLit "ExibeDoc('".data cs with
  | none => none
  | some r1 =>
    match eatClassPlus (fun c => c ≠ '\'') r1 with
    | none => none
    | some (run, r2) =>
      match eatLit "')".data r2 with
      | none => none
      | some _ => some (String.mk run)

/-- Double-quoted variant of the `ExibeDoc` pattern. -/
def tryExibeDocDq (cs : List Char) : Option String :=
  match eatLit "ExibeDoc(\"".data cs with
  | none => none
  | some r1 =>
    match eatClassPlus (fun c => c ≠ '"') r1 with
    | none => none
    | some (run, r2) =>
      match eatLit "\")".data r2 with
      | none => none
      | some _ => some (String.mk run)

/-- Try the gallery pattern `preview.src`, `\s*`, `=`, `\s*`, then a quoted
nonempty string, for the given quote character. -/
def tryPvwSrc (quote : Char) (cs : List Char) : Option String :=
  match eatLit "preview.src".data cs with
  | none => none
  | some r1 =>
    match eatLit "=".data (eatWs r1) with
    | none => none
    | some r2 =>
      match eatLit [quote] (eatWs r2) with
      | none => none
      | some r3 =>
        match eatClassPlus (fun c => c ≠ quote) r3 with
        | none => none
        | some (run, r4) =>
          match eatLit [quote] r4 with
          | none => none
          | some _ => some (String.mk run)

/-- Model of `cleanText`: collapse whitespace, trim, and turn the empty
result into `undefined`. -/
def cleanText (raw : Option String) : Option String :=
  let t := collapseWs (raw.getD "").data
  if t = [] then none else some (String.mk t)

/-- Model of `t.replace(/^label\s*/i, "")` (anchored label strip). -/
def stripLabelCi (label cs : List Char) : List Char :=
  match eatLitCi label cs with
  | some rest => rest.dropWhile jsIsWs
  | none => cs

/-- Does the string start with an URL scheme (letters/digits/`+`/`-`/`.`
run beginning with a letter, followed by a colon)? -/
def hasUrlScheme (s : String) : Bool :=
  match s.data with
  | [] => false
  | c :: _ =>
    c.isAlpha &&
      (let run := s.data.takeWhile (fun d => d.isAlpha || d.isDigit || d = '+' || d = '-' || d = '.')
       match s.data.drop run.length with
       | ':' :: _ => true
       | _ => false)

/-- Model of `new URL(rel, base).toString()` for the fixed origin-only base
the code uses: scheme-qualified inputs are kept, protocol-relative inputs
get the base's `https` scheme, and everything else is resolved against the
origin's root path. -/
def jsNewUrl (rel base : String) : String :=
  if hasUrlScheme rel then rel
  else if startsWithChars rel.data "//".data then String.mk ("https:".data ++ rel.data)
  else if startsWithChars rel.data "/".data then String.mk (base.data ++ rel.data)
  else String.mk (base.data ++ '/' :: rel.data)

/-- Model of the regex test `/^https?:\/\//i`. -/
def startsWithHttpScheme (s : String) : Bool :=
  startsWithCi s.data "http://".data || startsWithCi s.data "https://".data

/-- Embedding of `toAbsolute`. -/
def toAbsolute (base maybeRelative : String) : String :=
  if startsWithHttpScheme maybeRelative then maybeRelative else jsNewUrl maybeRelative base

/-- Worker for `uniq`: keep the first occurrence of each string (`Set`
insertion order). -/
def dedupFirstGo (seen : List String) : List String → List String
  | [] => []
  | s :: rest =>
    if seen.contains s then dedupFirstGo seen rest
    else s :: dedupFirstGo (s :: seen) rest

/-- Embedding of `uniq`: trim, drop empties, deduplicate keeping first
occurrences. -/
def uniqStrings (items : List String) : List String :=
  dedupFirstGo [] ((items.map (fun s => String.mk (trimChars s.data))).filter (fun s => s ≠ ""))

/-- One gallery `img` under `#galeria-imagens`: its `src` and `onclick`
attributes. -/
structure GalImg where
  src : Option String
  onclick : Option String
deriving DecidableEq

/-- Abstract detail-page document: one field per cheerio query
`parseDetailPageHtml` performs. `exibeDocOnclick` is the `onclick` of the
first anchor whose `onclick` mentions `ExibeDoc`, `baixarMatriculaOnclick`
the `onclick` of the first anchor containing the text `Baixar matrícula`,
`pdfHref` the `href` of the first anchor whose `href` ends in `.pdf`,
`strongValue` the raw text of the first `strong` under the first `span`
containing the given label, and the remaining fields the texts of the
`related-box` block and its labelled paragraphs. -/
structure DetailDoc where
  exibeDocOnclick : Option String
  baixarMatriculaOnclick : Option String
  pdfHref : Option String
  galeriaImgs : List GalImg
  strongValue : String → Option String
  relatedBoxText : Option String
  enderecoPText : Option String
  descricaoPText : Option String

/-- Embedding of the `ImovelDetailExtract` shape. -/
structure ImovelDetailExtract where
  matriculaPdfUrl : Option String
  galeriaFotoFilenames : Option (List String)
  galeriaFotoUrls : Option (List String)
  tipoImovel : Option String
  quartos : Option ℚ
  garagem : Option ℚ
  numeroImovel : Option String
  matriculas : Option (List String)
  comarca : Option String
  oficio : Option String
  inscricaoImobiliaria : Option String
  averbacaoLeiloesNegativos : Option String
  areaTotalM2 : Option ℚ
  areaPrivativaM2 : Option ℚ
  endereco : Option String
  descricao : Option String
  formasPagamentoRaw : Option String
  aceitaRecursosProprios : Option Bool
  aceitaFGTS : Option Bool
  aceitaFinanciamento : Option Bool
deriving DecidableEq

/-- Embedding of `pickStrongValue`. -/
def pickStrongValue (doc : DetailDoc) (label : String) : Option String :=
  cleanText (doc.strongValue label)

/-- The base URL constant of `parseDetailPageHtml`. -/
def detailBase : String := "https://venda-imoveis.caixa.gov.br"

/-- Sources pushed for one gallery image: the `src` attribute when it
contains `/fotos/`, then the `preview.src` capture of the `onclick` when it
contains `/fotos/`. -/
def galImgSrcs (img : GalImg) : List String :=
  let fromSrc :=
    match img.src with
    | some s => if s ≠ "" ∧ containsSub s.data "/fotos/".data then [s] else []
    | none => []
  let oc := (img.onclick.getD "").data
  let fromOnclick :=
    match
      (match scanFirst (tryPvwSrc '"') oc with
       | some p => some p
       | none => scanFirst (tryPvwSrc '\'') oc) with
    | some p => if containsSub p.data "/fotos/".data then [p] else []
    | none => []
  fromSrc ++ fromOnclick

/-- Try the FGTS pattern `permite`, `\s+`, `utiliza`, a `c`-or-`ç`
character, an `a`-or-`ã` character, `o`, `\s+`, `de`, `\s+`, `fgts`
(case-insensitive) at the current position. -/
def tryFgts (cs : List Char) : Option Unit :=
  match eatLitCi "permite".data cs with
  | none => none
  | some r1 =>
    match eatWsPlus r1 with
    | none => none
    | some r2 =>
      match eatLitCi "utiliza".data r2 with
      | none => none
      | some r3 =>
        match eatCharClass (fun c => jsToLowerChar c = 'ç' ∨ jsToLowerChar c = 'c') r3 with
        | none => none
        | some r4 =>
          match eatCharClass (fun c => jsToLowerChar c = 'a' ∨ jsToLowerChar c = 'ã') r4 with
          | none => none
          | some r5 =>
            match eatLitCi "o".data r5 with
            | none => none
            | some r6 =>
              match eatWsPlus r6 with
              | none => none
              | some r7 =>
                match eatLitCi "de".data r7 with
                | none => none
                | some r8 =>
                  match eatWsPlus r8 with
                  | none => none
                  | some r9 => (eatLitCi "fgts".data r9).map (fun _ => ())

/-- The `onclick` string the matrícula computation works with:
`a[onclick*='ExibeDoc'] ?? a:contains('Baixar matrícula') ?? ""`. -/
def matriculaOnclick (doc : DetailDoc) : String :=
  match doc.exibeDocOnclick with
  | some s => s
  | none =>
    match doc.baixarMatriculaOnclick with
    | some s => s
    | none => ""

/-- The matrícula-PDF link computation of `parseDetailPageHtml`: the
`ExibeDoc` single- or double-quoted capture resolved against the base, or
else a direct `.pdf` href. -/
def matriculaUrlOf (doc : DetailDoc) : Option String :=
  match
    (match scanFirst tryExibeDocSq (matriculaOnclick doc).data with
     | some p => some p
     | none => scanFirst tryExibeDocDq (matriculaOnclick doc).data) with
  | some p => some (toAbsolute detailBase p)
  | none =>
    match doc.pdfHref with
    | some h => if h ≠ "" then some (toAbsolute detailBase h) else none
    | none => none

/-- All gallery sources collected by the `each` loop. -/
def galeriaSrcsOf (doc : DetailDoc) : List String :=
  (doc.galeriaImgs.map galImgSrcs).flatten

/-- The gallery URLs: deduplicated trimmed sources resolved against the
base. -/
def galleryUrls (doc : DetailDoc) : List String :=
  (uniqStrings (galeriaSrcsOf doc)).map (toAbsolute detailBase)

/-- Last nonempty `/`-separated segment of an URL after stripping the query
string (`?? ""` when there is none). -/
def lastSegmentNoQuery (u : String) : String :=
  let noQuery := (splitOnSub ['?'] u.data).headD u.data
  let parts := (splitOnSub ['/'] noQuery).filter (fun p => p ≠ [])
  match parts.getLast? with
  | some p => String.mk p
  | none => ""

/-- The gallery filenames list (empty results dropped). -/
def galleryFilenames (doc : DetailDoc) : List String :=
  ((galleryUrls doc).map lastSegmentNoQuery).filter (fun s => s ≠ "")

/-- Embedding of `parseDetailPageHtml`. -/
def parseDetailPageHtml (doc : DetailDoc) : ImovelDetailExtract :=
  let matriculaPdfUrl := matriculaUrlOf doc
  let galeriaFotoUrls := galleryUrls doc
  let galeriaFotoFilenames := galleryFilenames doc
  let tipoImovel := pickStrongValue doc "Tipo de imóvel"
  let quartos :=
    match pickStrongValue doc "Quartos" with
    | some raw =>
      match jsNumberOfString raw with
      | .val q => some q
      | _ => none
    | none => none
  let garagem :=
    match pickStrongValue doc "Garagem" with
    | some raw =>
      match jsNumberOfString raw with
      | .val q => some q
      | _ => none
    | none => none
  let numeroImovel := pickStrongValue doc "Número do imóvel"
  let matriculas :=
    match pickStrongValue doc "Matrícula" with
    | none => none
    | some raw =>
      let parts :=
        ((splitRuns (fun c => c = ',' ∨ jsIsWs c) raw.data).map
          (fun p => String.mk (trimChars p))).filter (fun s => s ≠ "")
      if parts ≠ [] then some parts else none
  let comarca := pickStrongValue doc "Comarca"
  let oficio := pickStrongValue doc "Ofício"
  let inscricaoImobiliaria := pickStrongValue doc "Inscrição imobiliária"
  let averbacaoLeiloesNegativos := pickStrongValue doc "Averbação dos leilões negativos"
  let areaTotalM2 :=
    ((cleanText (doc.strongValue "Área total")).bind (fun r =>
      scanFirst (fun cs => (eatClassPlus moneyChar cs).map (fun x => String.mk x.1)) r.data)).bind
      parseBrazilianNumber
  let areaPrivativaM2 :=
    ((cleanText (doc.strongValue "Área privativa")).bind (fun r =>
      scanFirst (fun cs => (eatClassPlus moneyChar cs).map (fun x => String.mk x.1)) r.data)).bind
      parseBrazilianNumber
  let relatedBoxText := cleanText doc.relatedBoxText
  let endereco :=
    match cleanText doc.enderecoPText with
    | none => none
    | some t => cleanText (some (String.mk (stripLabelCi "Endereço:".data t.data)))
  let descricao :=
    match cleanText doc.descricaoPText with
    | none => none
    | some t => cleanText (some (String.mk (stripLabelCi "Descrição:".data t.data)))
  let formasPagamentoRaw :=
    match relatedBoxText with
    | none => none
    | some t =>
      let up := t.data.map jsToUpperChar
      match findIdxSub "FORMAS DE PAGAMENTO ACEITAS:".data up with
      | none => none
      | some start =>
        let tail := t.data.drop start
        let upTail := up.drop start
        let sect :=
          match findIdxSub "REGRAS PARA PAGAMENTO".data upTail with
          | none => tail
          | some e => tail.take e
        cleanText (some (String.mk sect))
  let aceitaRecursosProprios :=
    match formasPagamentoRaw with
    | some f => if containsSubCi f.data "recursos próprios".data then some true else none
    | none => none
  let aceitaFGTS :=
    match formasPagamentoRaw with
    | some f => if (scanFirst tryFgts f.data).isSome then some true else none
    | none => none
  let aceitaFinanciamento :=
    match formasPagamentoRaw with
    | some f => if containsSubCi f.data "financiamento".data then some true else none
    | none => none
  { matriculaPdfUrl := truthyOpt matriculaPdfUrl
    galeriaFotoUrls := if galeriaFotoUrls ≠ [] then some galeriaFotoUrls else none
    galeriaFotoFilenames := if galeriaFotoFilenames ≠ [] then some galeriaFotoFilenames else none
    tipoImovel := truthyOpt tipoImovel
    quartos := quartos
    garagem := garagem
    numeroImovel := truthyOpt numeroImovel
    matriculas := matriculas
    comarca := truthyOpt comarca
    oficio := truthyOpt oficio
    inscricaoImobiliaria := truthyOpt inscricaoImobiliaria
    averbacaoLeiloesNegativos := truthyOpt averbacaoLeiloesNegativos
    areaTotalM2 := areaTotalM2
    areaPrivativaM2 := areaPrivativaM2
    endereco := truthyOpt endereco
    descricao := truthyOpt descricao
    formasPagamentoRaw := truthyOpt formasPagamentoRaw
    aceitaRecursosProprios := aceitaRecursosProprios
    aceitaFGTS := aceitaFGTS
    aceitaFinanciamento := aceitaFinanciamento }

/-! ## src/caixa/search.ts, detail.ts, listPage.ts

The `HttpClient` is abstracted as an oracle from calls to outcomes
(`.error` models a request that threw with no response). Each fetcher
returns its result together with the list of calls it issued, in order. -/

/-- Method of an HTTP call. -/
inductive HttpMethod where
  | get : HttpMethod
  | post : HttpMethod
deriving DecidableEq

/-- One call made through the client: method, path and form fields. -/
structure HttpCall where
  method : HttpMethod
  path : String
  form : List (String × String)
deriving DecidableEq

/-- The session-establishing GET of `runSearch`. -/
def searchGetCall : HttpCall :=
  { method := .get, path := "/sistema/busca-imovel.asp?sltTipoBusca=imoveis", form := [] }

/-- The search POST of `runSearch` for a given form payload. -/
def searchPostCall (payload : List (String × String)) : HttpCall :=
  { method := .post, path := "/sistema/carregaPesquisaImoveis.asp", form := payload }

/-- Embedding of `runSearch`: GET the search page (propagating a transport
error), POST the form, fail unless the status is 200, then parse the body.
`load` models `cheerio.load` on the response text. -/
def runSearch (client : HttpCall → Except Unit HttpResponse) (load : String → SearchDoc)
    (payload : List (String × String)) : Except Unit CaixaSearchResult × List HttpCall :=
  match client searchGetCall with
  | .error e => (.error e, [searchGetCall])
  | .ok _ =>
    match client (searchPostCall payload) with
    | .error e => (.error e, [searchGetCall, searchPostCall payload])
    | .ok res =>
      (if res.status ≠ 200 then .error () else parseSearchResponse (load res.text),
        [searchGetCall, searchPostCall payload])

/-- The POST issued by `fetchDetailPageHtml`. -/
def detailCall (imovelId : String) : HttpCall :=
  { method := .post, path := "/sistema/detalhe-imovel.asp", form := [("hdnimovel", imovelId)] }

/-- Embedding of `fetchDetailPageHtml`. -/
def fetchDetailPageHtml (client : HttpCall → Except Unit HttpResponse) (imovelId : String) :
    Except Unit String × List HttpCall :=
  match client (detailCall imovelId) with
  | .error e => (.error e, [detailCall imovelId])
  | .ok res =>
    (if res.status ≠ 200 then .error () else .ok res.text, [detailCall imovelId])

/-- The POST issued by `fetchListPageHtml`. -/
def listPageCall (hdnImov : String) : HttpCall :=
  { method := .post, path := "/sistema/carregaListaImoveis.asp", form := [("hdnImov", hdnImov)] }

/-- Embedding of `fetchListPageHtml`. -/
def fetchListPageHtml (client : HttpCall → Except Unit HttpResponse) (hdnImov : String) :
    Except Unit String × List HttpCall :=
  match client (listPageCall hdnImov) with
  | .error e => (.error e, [listPageCall hdnImov])
  | .ok res =>
    (if res.status ≠ 200 then .error () else .ok res.text, [listPageCall hdnImov])

/-! ## src/fs-api/writeCsv.ts and src/scrape.ts -/

/-- A cell of the record matrix handed to `csv-stringify`: the projected
field value (string, number, or absent/`undefined`, which stringify renders
as an empty cell). -/
inductive CsvCell where
  | strCell (s : String) : CsvCell
  | numCell (q : ℚ) : CsvCell
  | emptyCell : CsvCell
deriving DecidableEq

/-- Cell of an optional string field. -/
def cellOfOptStr (o : Option String) : CsvCell :=
  match o with
  | some s => .strCell s
  | none => .emptyCell

/-- Cell of an optional numeric field. -/
def cellOfOptNum (o : Option ℚ) : CsvCell :=
  match o with
  | some q => .numCell q
  | none => .emptyCell

/-- The fixed `COLUMNS` list of writeCsv.ts. -/
def csvColumns : List String :=
  ["imovelId", "uf", "cidadeId", "titulo", "modalidade", "tipoImovel", "areaUtilM2",
    "quartos", "vagas", "valorAvaliacao", "valorMinimo", "descontoPercent", "enderecoRaw",
    "observacoesRaw", "page"]

/-- Projection of one item onto the `COLUMNS` order (what `csv-stringify`
emits for one row under the `columns` option). -/
def csvRecordOf (it : ImovelListItem) : List CsvCell :=
  [.strCell it.imovelId, .strCell it.uf, .strCell it.cidadeId, .strCell it.titulo,
    cellOfOptStr it.modalidade, cellOfOptStr it.tipoImovel, cellOfOptNum it.areaUtilM2,
    cellOfOptNum it.quartos, cellOfOptNum it.vagas, cellOfOptNum it.valorAvaliacao,
    cellOfOptNum it.valorMinimo, cellOfOptNum it.descontoPercent,
    cellOfOptStr it.enderecoRaw, cellOfOptStr it.observacoesRaw, .numCell (it.page : ℚ)]

/-- The CSV document as a header row plus data records (cell serialisation
and quoting are the CSV library's concern and are not modelled). -/
structure CsvDoc where
  header : List String
  records : List (List CsvCell)
deriving DecidableEq

/-- Embedding of `writeImoveisCsv`: `header: true` emits the column list
once, then one record per item. -/
def writeImoveisCsv (items : List ImovelListItem) : CsvDoc :=
  { header := csvColumns, records := items.map csvRecordOf }

/-- Lexicographic order on character lists (code-point order). On the
all-digit `imovelId` strings this coincides with the ICU default collation
that `localeCompare` uses. -/
def lexLe : List Char → List Char → Bool
  | [], _ => true
  | _ :: _, [] => false
  | a :: as, b :: bs => if a < b then true else if b < a then false else lexLe as bs

/-- The sort comparator of `scrapeCaixa` as a boolean order: `le a b` holds
exactly when the JS comparator returns a nonpositive value on `(a, b)`
(page difference first, then `imovelId` comparison). -/
def listCmpLe (a b : ImovelListItem) : Bool :=
  if a.page = b.page then lexLe a.imovelId.data b.imovelId.data
  else decide (a.page < b.page)

/-- Stable insertion: the new element goes after every existing element
that compares less-or-equal to it. -/
def insertByLe {α : Type} (le : α → α → Bool) (a : α) : List α → List α
  | [] => [a]
  | b :: bs => if le b a then b :: insertByLe le a bs else a :: b :: bs

/-- Stable sort by a total boolean order; a stable sort is unique as a
function of the input list, so this models `Array.prototype.sort` (stable
per ES2019) with the scrape comparator. -/
def sortByLe {α : Type} (le : α → α → Bool) (l : List α) : List α :=
  l.foldl (fun acc x => insertByLe le x acc) []

/-- Embedding of `totalPages`: `opts.maxPages ? Math.min(...) : length`
(`0` is falsy). -/
def scrapeTotalPages (tokens : List String) (maxPages : Option ℕ) : ℕ :=
  match maxPages with
  | some m => if 0 < m then min m tokens.length else tokens.length
  | none => tokens.length

/-- Embedding of the task-building loop of `scrapeCaixa`: the page jobs
`(page, token)` in task order, skipping falsy tokens (`page = idx + 1`). -/
def scrapePageJobs (tokens : List String) (maxPages : Option ℕ) : List (ℕ × String) :=
  (List.range (scrapeTotalPages tokens maxPages)).filterMap (fun idx =>
    match tokens.get? idx with
    | some tok => if tok ≠ "" then some (idx + 1, tok) else none
    | none => none)

/-- Embedding of the collection phase of `scrapeCaixa`: `Promise.all`
returns the per-task item lists in task order (independently of completion
order), and the loop concatenates them. `loadPage page token` models
`cheerio.load` of the fetched list-page HTML for that job. -/
def scrapeCollected (loadPage : ℕ → String → List ListCard) (uf cidade : String)
    (tokens : List String) (maxPages : Option ℕ) : List ImovelListItem :=
  ((scrapePageJobs tokens maxPages).map
    (fun pt => parseListPageHtml (loadPage pt.1 pt.2) uf cidade pt.1)).flatten

/-- Embedding of the sort in `scrapeCaixa`. -/
def scrapeSorted (loadPage : ℕ → String → List ListCard) (uf cidade : String)
    (tokens : List String) (maxPages : Option ℕ) : List ImovelListItem :=
  sortByLe listCmpLe (scrapeCollected loadPage uf cidade tokens maxPages)

/-- Embedding of the persistence tail of `scrapeCaixa`: write the CSV and
return the row count `finalItems.length`. The `withDetails` enrichment maps
items one-to-one and only adds object keys outside the fifteen projected
columns, so the written records and the count are the same in both modes. -/
def scrapeModel (loadPage : ℕ → String → List ListCard) (uf cidade : String)
    (tokens : List String) (maxPages : Option ℕ) : CsvDoc × ℕ :=
  let sorted := scrapeSorted loadPage uf cidade tokens maxPages
  (writeImoveisCsv sorted, sorted.length)

/-- Model of the `Promise.all` reassembly: regardless of the order in which
worker results complete, result `i` of `Promise.all` is the value of task
`i`. `completions` lists `(task index, items)` pairs in completion order. -/
def promiseAllAssemble (n : ℕ) (completions : List (ℕ × List ImovelListItem)) :
    List (List ImovelListItem) :=
  (List.range n).map (fun i =>
    match completions.find? (fun c => c.1 = i) with
    | some c => c.2
    | none => [])

/-! ## Helper lemmas for the retry loop (C1) -/

theorem requestAttempts_le (outs : List (Option HttpResponse)) :
    requestAttempts outs ≤ outs.length := by
  induction outs with
  | nil => simp [requestAttempts]
  | cons o rest ih =>
    cases o with
    | none => simpa [requestAttempts] using Nat.succ_le_succ ih
    | some r =>
      by_cases hr : isRetryableStatus r.status
      · simpa [requestAttempts, hr] using Nat.succ_le_succ ih
      · simp [requestAttempts, hr]

theorem requestResult_first_ok (outs : List (Option HttpResponse)) :
    ∀ (last : Option HttpResponse) (i : ℕ) (r : HttpResponse),
      outs.get? i = some (some r) → isRetryableStatus r.status = false →
      (∀ j r', j < i → outs.get? j = some (some r') → isRetryableStatus r'.status = true) →
      requestResult outs last = .ok r ∧ requestAttempts outs = i + 1 := by
  induction outs with
  | nil => intro last i r h _ _; simp at h
  | cons o rest ih =>
    intro last i r h hnr hbefore
    cases i with
    | zero =>
      rw [List.get?_cons_zero] at h
      injection h with h
      subst h
      simp [requestResult, requestAttempts, hnr]
    | succ n =>
      rw [List.get?_cons_succ] at h
      cases o with
      | none =>
        have hrec := ih last n r h hnr
          (fun j r' hj hg => hbefore (j + 1) r' (by omega) (by rwa [List.get?_cons_succ]))
        refine ⟨?_, ?_⟩
        · simpa [requestResult] using hrec.1
        · simp [requestAttempts, hrec.2]
      | some r0 =>
        have hr0 : isRetryableStatus r0.status = true :=
          hbefore 0 r0 (by omega) (by rw [List.get?_cons_zero])
        have hrec := ih (some r0) n r h hnr
          (fun j r' hj hg => hbefore (j + 1) r' (by omega) (by rwa [List.get?_cons_succ]))
        refine ⟨?_, ?_⟩
        · simpa [requestResult, hr0] using hrec.1
        · simp [requestAttempts, hr0, hrec.2]

theorem requestResult_all_retryable (outs : List (Option HttpResponse)) :
    ∀ last : Option HttpResponse,
      (∀ i r, outs.get? i = some (some r) → isRetryableStatus r.status = true) →
      requestResult outs last =
        (match (outs.filterMap id).getLast? with
          | some r => .ok r
          | none =>
            match last with
            | some l => .ok l
            | none => .error ()) := by
  induction outs with
  | nil => intro last _; cases last <;> simp [requestResult]
  | cons o rest ih =>
    intro last hall
    cases o with
    | none =>
      have hrec := ih last (fun i r h => hall (i + 1) r (by rwa [List.get?_cons_succ]))
      simpa [requestResult] using hrec
    | some r0 =>
      have hr0 : isRetryableStatus r0.status = true :=
        hall 0 r0 (by rw [List.get?_cons_zero])
      have hrec := ih (some r0) (fun i r h => hall (i + 1) r (by rwa [List.get?_cons_succ]))
      rcases hrest : (rest.filterMap id).getLast? with _ | rl
      · rw [hrest] at hrec
        have hnil : rest.filterMap id = [] := List.getLast?_eq_none_iff.mp hrest
        simp [requestResult, hr0, hrec, hnil]
      · rw [hrest] at hrec
        have hfm : (some r0 :: rest).filterMap id = r0 :: rest.filterMap id := rfl
        have hcons : ((some r0 :: rest).filterMap id).getLast? = some rl := by
          rw [hfm]
          rcases hr : rest.filterMap id with _ | ⟨x, xs⟩
          · rw [hr] at hrest; simp at hrest
          · rw [List.getLast?_cons_cons]
            rw [hr] at hrest
            exact hrest
        rw [hcons]
        simp [requestResult, hr0, hrec]

theorem requestResult_error_iff (outs : List (Option HttpResponse)) :
    ∀ last : Option HttpResponse,
      (requestResult outs last = .error () ↔ (outs.all (fun o => o.isNone) ∧ last = none)) := by
  induction outs with
  | nil =>
    intro last
    cases last <;> simp [requestResult]
  | cons o rest ih =>
    intro last
    cases o with
    | none => simpa [requestResult] using ih last
    | some r =>
      by_cases hr : isRetryableStatus r.status
      · rw [show requestResult (some r :: rest) last = requestResult rest (some r) by
          simp [requestResult, hr]]
        rw [ih (some r)]
        simp
      · simp [requestResult, hr]

/-- C1: `HttpClient.request` makes at most `retries + 1` attempts; it
returns, with no further attempt, the first response whose status is not
retryable; when every attempt yields a retryable response it returns the
last response; and it throws exactly when no attempt produced a response. -/
theorem c1_request_retry_behaviour (retries : ℕ) (outcomes : List (Option HttpResponse))
    (hlen : outcomes.length = retries + 1) :
    (httpRequest retries outcomes).2 ≤ retries + 1 ∧
    (∀ i r, outcomes.get? i = some (some r) → isRetryableStatus r.status = false →
      (∀ j r', j < i → outcomes.get? j = some (some r') → isRetryableStatus r'.status = true) →
      httpRequest retries outcomes = (.ok r, i + 1)) ∧
    ((∀ i r, outcomes.get? i = some (some r) → isRetryableStatus r.status = true) →
      ∀ rl, (outcomes.filterMap id).getLast? = some rl →
        (httpRequest retries outcomes).1 = .ok rl) ∧
    ((httpRequest retries outcomes).1 = .error () ↔ outcomes.all (fun o => o.isNone)) := by
  have htake : outcomes.take (retries + 1) = outcomes := by
    rw [← hlen]; exact List.take_length outcomes
  unfold httpRequest
  rw [htake]
  refine ⟨?_, ?_, ?_, ?_⟩
  · exact le_of_le_of_eq (requestAttempts_le outcomes) hlen
  · intro i r h hnr hbefore
    have hrec := requestResult_first_ok outcomes none i r h hnr hbefore
    simp [hrec.1, hrec.2]
  · intro hall rl hlast
    simp only
    rw [requestResult_all_retryable outcomes none hall, hlast]
  · simpa using requestResult_error_iff outcomes none

/-- Witness for C1 at a concrete run: retries = 1, first attempt throws,
second returns a retryable 503, which is then returned as the last
response. -/
theorem c1_request_retry_behaviour_witness :
    (httpRequest 1 [none, some ⟨503, "x"⟩]).1 = .ok ⟨503, "x"⟩ ∧
    ¬ (httpRequest 1 [none, some ⟨503, "x"⟩]).1 = .error () := by
  have h := c1_request_retry_behaviour 1 [none, some ⟨503, "x"⟩] (by decide)
  have hall : ∀ i r, ([none, some (⟨503, "x"⟩ : HttpResponse)] : List (Option HttpResponse)).get? i =
      some (some r) → isRetryableStatus r.status = true := by
    intro i r hg
    match i, hg with
    | 1, hg =>
      simp only [List.get?] at hg
      cases hg
      decide
  refine ⟨h.2.2.1 hall ⟨503, "x"⟩ (by decide), ?_⟩
  rw [h.2.2.2]
  decide

/-! ## Helper lemmas for the rate limiter (C2) -/

theorem scheduleStart_eq_max (st now : ℕ) : scheduleStart st now = max st now := by
  unfold scheduleStart; omega

theorem scheduleTrace_mem_ge (m : ℕ) (nows : List ℕ) :
    ∀ (st : ℕ) (x : ℕ), x ∈ scheduleTrace m st nows → st ≤ x := by
  induction nows with
  | nil => intro st x hx; simp [scheduleTrace] at hx
  | cons now rest ih =>
    intro st x hx
    simp only [scheduleTrace, List.mem_cons] at hx
    rcases hx with h | h
    · subst h; unfold scheduleStart; omega
    · have h2 := ih (scheduleNext m st now) x h
      unfold scheduleNext at h2
      omega

theorem scheduleTrace_gap (m : ℕ) (nows : List ℕ) :
    ∀ (st i : ℕ) (s1 s2 : ℕ),
      (scheduleTrace m st nows).get? i = some s1 →
      (scheduleTrace m st nows).get? (i + 1) = some s2 →
      s1 + m ≤ s2 := by
  induction nows with
  | nil => intro st i s1 s2 h1 _; simp [scheduleTrace] at h1
  | cons now rest ih =>
    intro st i s1 s2 h1 h2
    cases i with
    | zero =>
      simp only [scheduleTrace, List.get?] at h1 h2
      cases h1
      have hmem : s2 ∈ scheduleTrace m (scheduleNext m st now) rest := List.get?_mem h2
      have hge := scheduleTrace_mem_ge m rest (scheduleNext m st now) s2 hmem
      unfold scheduleStart scheduleNext at *
      omega
    | succ n =>
      simp only [scheduleTrace, List.get?] at h1 h2
      exact ih (scheduleNext m st now) n s1 s2 h1 h2

/-- C2 (amended): admissions are serialised, each admission sleeps until the
previously recorded `nextAllowedAt` (so the fetch starts at
`max nextAllowedAt now`), and `nextAllowedAt` advances to
`max(nextAllowedAt, now) + minDelayMs` — exactly `minDelayMs` beyond its
previous value when the limiter is backlogged (`now ≤ nextAllowedAt`);
consequently, under the exact-sleep clock, consecutive fetches start at
least `minDelayMs` apart. -/
theorem c2_rate_limiter_spacing (minDelayMs st now : ℕ) (nows : List ℕ) (i s1 s2 : ℕ)
    (h1 : (scheduleTrace minDelayMs st nows).get? i = some s1)
    (h2 : (scheduleTrace minDelayMs st nows).get? (i + 1) = some s2) :
    s1 + minDelayMs ≤ s2 ∧
    scheduleStart st now = max st now ∧
    scheduleNext minDelayMs st now = max st now + minDelayMs ∧
    (now ≤ st → scheduleNext minDelayMs st now = st + minDelayMs) := by
  refine ⟨scheduleTrace_gap minDelayMs nows st i s1 s2 h1 h2, scheduleStart_eq_max st now,
    rfl, ?_⟩
  intro h
  unfold scheduleNext
  omega

/-- Counterexample to C2 as stated: with `minDelayMs = 100`,
`nextAllowedAt = 0` and an admission reading `now = 50`, the recorded
`nextAllowedAt` becomes 150, which is not an advance by exactly
`minDelayMs` over its previous value. -/
theorem c2_rate_limiter_counterexample :
    scheduleNext 100 0 50 = 150 ∧ (0 + 100 : ℕ) ≠ 150 := by decide

/-- Witness for C2 on a concrete trace: two admissions at times 0 and 10
with `minDelayMs = 100` start at 0 and 100. -/
theorem c2_rate_limiter_spacing_witness :
    (scheduleTrace 100 0 [0, 10]).get? 0 = some 0 ∧
    (scheduleTrace 100 0 [0, 10]).get? 1 = some 100 ∧
    0 + 100 ≤ 100 := by
  refine ⟨by decide, by decide, ?_⟩
  exact (c2_rate_limiter_spacing 100 0 0 [0, 10] 0 0 100 (by decide) (by decide)).1

/-- C6: the backoff base before retry `a + 1` is `750 * 2 ^ a` capped at
30000, and the jittered sleep always lies within
`base ± floor(0.2 * base)`. -/
theorem c6_backoff_jitter_bounds (a : ℕ) (r : ℚ) (h0 : 0 ≤ r) (h1 : r < 1) :
    backoffBase a = min 30000 (750 * 2 ^ a) ∧
    ((backoffBase a : ℤ) - (jitterDelta (backoffBase a) : ℤ)) ≤ jitter (backoffBase a) r ∧
    jitter (backoffBase a) r ≤ ((backoffBase a : ℤ) + (jitterDelta (backoffBase a) : ℤ)) := by
  refine ⟨rfl, ?_, ?_⟩
  · unfold jitter
    have hfl : (0 : ℤ) ≤ ⌊r * (2 * (jitterDelta (backoffBase a) : ℚ) + 1)⌋ := by
      apply Int.floor_nonneg.mpr
      apply mul_nonneg h0
      positivity
    omega
  · unfold jitter
    have hub : ⌊r * (2 * (jitterDelta (backoffBase a) : ℚ) + 1)⌋ ≤ 2 * (jitterDelta (backoffBase a) : ℤ) := by
      have hlt : r * (2 * (jitterDelta (backoffBase a) : ℚ) + 1) <
          ((2 * (jitterDelta (backoffBase a) : ℤ) + 1 : ℤ) : ℚ) := by
        push_cast
        have hpos : (0 : ℚ) < 2 * (jitterDelta (backoffBase a) : ℚ) + 1 := by positivity
        calc r * (2 * (jitterDelta (backoffBase a) : ℚ) + 1)
            < 1 * (2 * (jitterDelta (backoffBase a) : ℚ) + 1) :=
              mul_lt_mul_of_pos_right h1 hpos
          _ = 2 * (jitterDelta (backoffBase a) : ℚ) + 1 := one_mul _
      have := Int.floor_lt.mpr hlt
      omega
    omega

/-- Witness for C6 at attempt 0 with random draw 0. -/
theorem c6_backoff_jitter_bounds_witness :
    (0 : ℚ) ≤ 0 ∧ (0 : ℚ) < 1 ∧
    ((backoffBase 0 : ℤ) - (jitterDelta (backoffBase 0) : ℤ)) ≤ jitter (backoffBase 0) 0 ∧
    jitter (backoffBase 0) 0 ≤ ((backoffBase 0 : ℤ) + (jitterDelta (backoffBase 0) : ℤ)) :=
  ⟨le_refl 0, by norm_num, (c6_backoff_jitter_bounds 0 0 (le_refl 0) (by norm_num)).2⟩

/-! ## Helper lemmas on character lists (C10, C3) -/

theorem trimChars_of_all_ws (cs : List Char) (h : ∀ c ∈ cs, jsIsWs c = true) :
    trimChars cs = [] := by
  unfold trimChars
  have h1 : cs.dropWhile jsIsWs = [] := by
    rw [List.dropWhile_eq_nil_iff]
    exact h
  rw [h1]
  simp

theorem trimChars_of_no_ws (cs : List Char) (h : ∀ c ∈ cs, jsIsWs c = false) :
    trimChars cs = cs := by
  unfold trimChars
  have h1 : cs.dropWhile jsIsWs = cs := by
    cases cs with
    | nil => rfl
    | cons c t =>
      rw [List.dropWhile_cons]
      simp [h c (by simp)]
  rw [h1]
  have h2 : cs.reverse.dropWhile jsIsWs = cs.reverse := by
    cases hrev : cs.reverse with
    | nil => rfl
    | cons c t =>
      rw [List.dropWhile_cons]
      have hc : c ∈ cs := by
        have : c ∈ cs.reverse := by rw [hrev]; simp
        simpa using this
      simp [h c hc]
  rw [h2, List.reverse_reverse]

theorem replaceFirstComma_of_not_mem (cs : List Char) (h : ',' ∉ cs) :
    replaceFirstComma cs = cs := by
  induction cs with
  | nil => rfl
  | cons c t ih =>
    have hc : c ≠ ',' := fun hh => h (hh ▸ List.mem_cons_self c t)
    have ht : ',' ∉ t := fun hh => h (List.mem_cons_of_mem c hh)
    simp [replaceFirstComma, hc, ih ht]

theorem replaceFirstComma_append (A B : List Char) (h : ',' ∉ A) :
    replaceFirstComma (A ++ ',' :: B) = A ++ '.' :: B := by
  induction A with
  | nil => simp [replaceFirstComma]
  | cons a t ih =>
    have ha : a ≠ ',' := fun hh => h (hh ▸ List.mem_cons_self a t)
    have ht : ',' ∉ t := fun hh => h (List.mem_cons_of_mem a hh)
    simp [replaceFirstComma, ha, ih ht]

theorem comma_split (cs : List Char) (h : cs.count ',' ≤ 1) :
    (',' ∉ cs) ∨ ∃ A B, cs = A ++ ',' :: B ∧ ',' ∉ A ∧ ',' ∉ B := by
  induction cs with
  | nil => left; simp
  | cons c t ih =>
    by_cases hc : c = ','
    · subst hc
      right
      refine ⟨[], t, by simp, by simp, ?_⟩
      have : t.count ',' = 0 := by
        have := h
        rw [List.count_cons_self] at this
        omega
      exact (List.count_eq_zero).mp this
    · have ht : t.count ',' ≤ 1 := by
        have := h
        rw [List.count_cons_of_ne (fun hh => hc hh.symm)] at this
        omega
      rcases ih ht with hnot | ⟨A, B, heq, hA, hB⟩
      · left
        intro hmem
        rcases List.mem_cons.mp hmem with hh | hh
        · exact hc hh.symm
        · exact hnot hh
      · right
        refine ⟨c :: A, B, by rw [heq]; rfl, ?_, hB⟩
        intro hmem
        rcases List.mem_cons.mp hmem with hh | hh
        · exact hc hh.symm
        · exact hA hh

theorem count_dropWhile_of_ne (p : Char → Bool) (a : Char) (hpa : p a = false) (cs : List Char) :
    (cs.dropWhile p).count a = cs.count a := by
  induction cs with
  | nil => rfl
  | cons c t ih =>
    rw [List.dropWhile_cons]
    by_cases hc : p c
    · have hca : ¬ (c = a) := fun hh => by rw [hh] at hc; rw [hpa] at hc; exact Bool.noConfusion hc
      rw [if_pos hc, ih, List.count_cons_of_ne (fun hh => hca hh.symm)]
    · rw [if_neg hc]

theorem count_comma_trimChars (cs : List Char) :
    (trimChars cs).count ',' = cs.count ',' := by
  have hws : jsIsWs ',' = false := by decide
  unfold trimChars
  rw [List.count_reverse, count_dropWhile_of_ne jsIsWs ',' hws, List.count_reverse,
    count_dropWhile_of_ne jsIsWs ',' hws]

theorem count_comma_filter_dots (cs : List Char) :
    (cs.filter (fun c => c ≠ '.')).count ',' = cs.count ',' := by
  induction cs with
  | nil => rfl
  | cons c t ih =>
    by_cases hc : c = '.'
    · subst hc
      rw [List.filter_cons_of_neg (by simp)]
      rw [ih, List.count_cons_of_ne (by decide)]
    · rw [List.filter_cons_of_pos (by simpa using hc)]
      by_cases hca : c = ','
      · subst hca; rw [List.count_cons_self, List.count_cons_self, ih]
      · rw [List.count_cons_of_ne (fun hh => hca hh.symm),
          List.count_cons_of_ne (fun hh => hca hh.symm), ih]

theorem comma_mem_replaceFirstComma (cs : List Char) (h : 2 ≤ cs.count ',') :
    ',' ∈ replaceFirstComma cs := by
  induction cs with
  | nil => simp at h
  | cons c t ih =>
    by_cases hc : c = ','
    · subst hc
      have ht : 1 ≤ t.count ',' := by
        rw [List.count_cons_self] at h; omega
      have : ',' ∈ t := List.count_pos_iff.mp (by omega)
      simp [replaceFirstComma, this]
    · have ht : 2 ≤ t.count ',' := by
        rw [List.count_cons_of_ne (fun hh => hc hh.symm)] at h; exact h
      simp [replaceFirstComma, hc, ih ht]

theorem takeWhile_of_all (p : Char → Bool) (cs : List Char) (h : ∀ c ∈ cs, p c = true) :
    cs.takeWhile p = cs := by
  induction cs with
  | nil => rfl
  | cons c t ih =>
    rw [List.takeWhile_cons, if_pos (h c (by simp))]
    rw [ih (fun x hx => h x (List.mem_cons_of_mem c hx))]

theorem takeWhile_append_stop (p : Char → Bool) (A B : List Char) (x : Char)
    (hA : ∀ c ∈ A, p c = true) (hx : p x = false) :
    ((A ++ x :: B).takeWhile p) = A := by
  induction A with
  | nil => simp [List.takeWhile_cons, hx]
  | cons a t ih =>
    rw [List.cons_append, List.takeWhile_cons, if_pos (hA a (by simp))]
    rw [ih (fun c hc => hA c (List.mem_cons_of_mem a hc))]

theorem startsWith_pair_shape (cs : List Char) (a b : Char)
    (h : startsWithChars cs [a, b] = true) : ∃ t, cs = a :: b :: t := by
  match cs with
  | [] => exact absurd h (by simp [startsWithChars])
  | [c0] =>
    exfalso
    have : (decide (c0 = a) && startsWithChars [] [b]) = true := h
    simp [startsWithChars] at this
  | c0 :: c1 :: t =>
    have : (decide (c0 = a) && (decide (c1 = b) && startsWithChars t [])) = true := h
    simp [startsWithChars] at this
    exact ⟨t, by rw [this.1, this.2]⟩

theorem not_starts_pair_of_digit_dot (cs : List Char) (a b : Char)
    (h : ∀ c ∈ cs, c.isDigit = true ∨ c = '.')
    (hb : b.isDigit = false) (hbdot : b ≠ '.') :
    startsWithChars cs [a, b] = false := by
  match cs with
  | [] => rfl
  | [c0] =>
    show (decide (c0 = a) && startsWithChars [] [b]) = false
    simp [startsWithChars]
  | c0 :: c1 :: t =>
    have h1 := h c1 (by simp)
    have hne : ¬ (c1 = b) := by
      rcases h1 with hd | hd
      · intro hh; rw [hh] at hd; rw [hd] at hb; exact Bool.noConfusion hb
      · intro hh; rw [hh] at hd; exact hbdot hd
    show (decide (c0 = a) && (decide (c1 = b) && startsWithChars t [])) = false
    simp [hne]

theorem digit_dot_ne (c k : Char) (hc : c.isDigit = true ∨ c = '.')
    (hk : k.isDigit = false) (hkd : k ≠ '.') : c ≠ k := by
  rcases hc with hd | hd
  · intro hh; rw [hh] at hd; rw [hd] at hk; exact Bool.noConfusion hk
  · intro hh; exact hkd (hh.symm.trans hd)

theorem digit_dot_ne_infinity (cs : List Char)
    (h : ∀ c ∈ cs, c.isDigit = true ∨ c = '.') : cs ≠ "Infinity".data := by
  intro heq
  have hi : 'I' ∈ cs := by rw [heq]; decide
  exact digit_dot_ne 'I' 'I' (h 'I' hi) (by decide) (by decide) rfl

theorem jsStrToNumberCore_digit_dot (cs : List Char) (hne : cs ≠ [])
    (h : ∀ c ∈ cs, c.isDigit = true ∨ c = '.') :
    jsStrToNumberCore cs =
      (match parseDec cs with
        | some q => JsNum.val q
        | none => JsNum.nan) := by
  rcases cs with _ | ⟨c, t⟩
  · exact absurd rfl hne
  have hx : ∀ b : Char, b.isDigit = false → b ≠ '.' →
      startsWithChars (c :: t) ['0', b] = false := fun b hb hbd =>
    not_starts_pair_of_digit_dot (c :: t) '0' b h hb hbd
  have hsd : jsStrToNumberCore (c :: t) = parseSignedDec (c :: t) := by
    simp only [jsStrToNumberCore, hx 'x' (by decide) (by decide),
      hx 'X' (by decide) (by decide), hx 'o' (by decide) (by decide),
      hx 'O' (by decide) (by decide), hx 'b' (by decide) (by decide),
      hx 'B' (by decide) (by decide), Bool.or_self, Bool.false_eq_true, if_false]
  have hcp : ¬ (c = '+') := digit_dot_ne c '+' (h c (by simp)) (by decide) (by decide)
  have hcm : ¬ (c = '-') := digit_dot_ne c '-' (h c (by simp)) (by decide) (by decide)
  have hinf : (c :: t) ≠ "Infinity".data := digit_dot_ne_infinity (c :: t) h
  rw [hsd]
  simp only [parseSignedDec, if_neg hcp, if_neg hcm, decOrInf, if_neg hinf]
  cases parseDec (c :: t) <;> simp

theorem parseDec_all_digits (ds : List Char) (hne : ds ≠ [])
    (h : ∀ c ∈ ds, c.isDigit = true) :
    parseDec ds = some ((digitsVal ds : ℕ) : ℚ) := by
  have htw : ds.takeWhile Char.isDigit = ds := takeWhile_of_all _ ds h
  simp only [parseDec, htw, List.drop_length]
  simp [hne]

theorem parseDec_digits_dot (A B : List Char) (hA : ∀ c ∈ A, c.isDigit = true)
    (hB : ∀ c ∈ B, c.isDigit = true) (hne : ¬(A = [] ∧ B = [])) :
    parseDec (A ++ '.' :: B) =
      some (decExpValue ((digitsVal (A ++ B) : ℕ) : ℤ) (0 - (B.length : ℤ))) := by
  have htw : (A ++ '.' :: B).takeWhile Char.isDigit = A :=
    takeWhile_append_stop _ A B '.' hA (by decide)
  have hdrop : (A ++ '.' :: B).drop A.length = '.' :: B := List.drop_left A ('.' :: B)
  have htwB : B.takeWhile Char.isDigit = B := takeWhile_of_all _ B hB
  simp only [parseDec, htw, hdrop, htwB, List.drop_length, if_pos rfl]
  simp [hne, parseExpOrEnd]

theorem all_digits_false_of_comma (d : List Char) (h : ',' ∈ d) :
    d.all Char.isDigit = false := by
  cases hall : d.all Char.isDigit
  · rfl
  · exfalso
    have := List.all_eq_true.mp hall ',' h
    exact Bool.noConfusion ((by decide : (','.isDigit) = false) ▸ this)

theorem mem_tail_of_ne_head {c x : Char} {t : List Char} (h : x ∈ c :: t) (hne : x ≠ c) :
    x ∈ t := by
  rcases List.mem_cons.mp h with hh | hh
  · exact absurd hh hne
  · exact hh

theorem parseExpTail_comma (cs : List Char) (h : ',' ∈ cs) : parseExpTail cs = none := by
  rcases cs with _ | ⟨c, d⟩
  · simp at h
  · by_cases hp : c = '+'
    · have hd : ',' ∈ d := mem_tail_of_ne_head h (by rw [hp]; decide)
      simp [parseExpTail, hp, expDigits, all_digits_false_of_comma d hd]
    · by_cases hm : c = '-'
      · have hd : ',' ∈ d := mem_tail_of_ne_head h (by rw [hm]; decide)
        simp [parseExpTail, hp, hm, expDigits, all_digits_false_of_comma d hd]
      · simp [parseExpTail, hp, hm, expDigits, all_digits_false_of_comma (c :: d) h]

theorem parseExpOrEnd_comma (cs : List Char) (h : ',' ∈ cs) : parseExpOrEnd cs = none := by
  rcases cs with _ | ⟨c, t⟩
  · simp at h
  · by_cases he : c = 'e' ∨ c = 'E'
    · have ht : ',' ∈ t := by
        apply mem_tail_of_ne_head h
        rcases he with hh | hh <;> rw [hh] <;> decide
      simp [parseExpOrEnd, he, parseExpTail_comma t ht]
    · simp [parseExpOrEnd, he]

theorem dropWhile_digit_mem_comma (cs : List Char) (h : ',' ∈ cs) :
    ',' ∈ cs.dropWhile Char.isDigit := by
  have hsplit := List.takeWhile_append_dropWhile (p := Char.isDigit) (l := cs)
  have : ',' ∈ cs.takeWhile Char.isDigit ++ cs.dropWhile Char.isDigit := by rw [hsplit]; exact h
  rcases List.mem_append.mp this with hh | hh
  · exact absurd (List.mem_takeWhile_imp hh)
      (fun hd => Bool.noConfusion ((by decide : (','.isDigit) = false) ▸ hd))
  · exact hh

theorem drop_takeWhile_length (p : Char → Bool) (cs : List Char) :
    cs.drop (cs.takeWhile p).length = cs.dropWhile p := by
  induction cs with
  | nil => rfl
  | cons c t ih =>
    rw [List.takeWhile_cons, List.dropWhile_cons]
    by_cases hc : p c
    · rw [if_pos hc, if_pos hc]
      simpa using ih
    · rw [if_neg hc, if_neg hc]
      rfl

theorem parseDec_comma (cs : List Char) (h : ',' ∈ cs) : parseDec cs = none := by
  have hdw : ',' ∈ cs.dropWhile Char.isDigit := dropWhile_digit_mem_comma cs h
  have hdrop : cs.drop (cs.takeWhile Char.isDigit).length = cs.dropWhile Char.isDigit :=
    drop_takeWhile_length _ cs
  simp only [parseDec, hdrop]
  rcases hdwe : cs.dropWhile Char.isDigit with _ | ⟨r, rest2⟩
  · rw [hdwe] at hdw; simp at hdw
  · rw [hdwe] at hdw
    by_cases hr : r = '.'
    · have hrest2 : ',' ∈ rest2 := mem_tail_of_ne_head hdw (by rw [hr]; decide)
      have hdw2 : ',' ∈ rest2.dropWhile Char.isDigit := dropWhile_digit_mem_comma rest2 hrest2
      have hdrop2 : rest2.drop (rest2.takeWhile Char.isDigit).length = rest2.dropWhile Char.isDigit :=
        drop_takeWhile_length _ rest2
      simp only [hr, if_pos rfl, hdrop2, parseExpOrEnd_comma _ hdw2]
      simp
    · by_cases he : r = 'e' ∨ r = 'E'
      · have hrest2 : ',' ∈ rest2 := by
          apply mem_tail_of_ne_head hdw
          rcases he with hh | hh <;> rw [hh] <;> decide
        simp [hr, he, parseExpTail_comma rest2 hrest2]
      · simp [hr, he]

theorem decOrInf_comma (body : List Char) (neg : Bool) (h : ',' ∈ body) :
    decOrInf body neg = .nan := by
  have hinf : body ≠ "Infinity".data := by
    intro heq; rw [heq] at h; exact absurd h (by decide)
  simp [decOrInf, hinf, parseDec_comma body h]

theorem parseSignedDec_comma (cs : List Char) (h : ',' ∈ cs) : parseSignedDec cs = .nan := by
  rcases cs with _ | ⟨c, body⟩
  · simp at h
  · by_cases hp : c = '+'
    · have hb : ',' ∈ body := mem_tail_of_ne_head h (by rw [hp]; decide)
      simp [parseSignedDec, hp, decOrInf_comma body false hb]
    · by_cases hm : c = '-'
      · have hb : ',' ∈ body := mem_tail_of_ne_head h (by rw [hm]; decide)
        simp [parseSignedDec, hp, hm, decOrInf_comma body true hb]
      · simp [parseSignedDec, hp, hm, decOrInf_comma (c :: body) false h]

theorem isRadixDigit_comma (radix : ℕ) : isRadixDigit radix ',' = false := by
  unfold isRadixDigit
  split
  · decide
  · split
    · decide
    · split
      · decide
      · decide

theorem parseRadix_comma (radix : ℕ) (ds : List Char) (h : ',' ∈ ds) :
    parseRadix radix ds = none := by
  have hall : ds.all (isRadixDigit radix) = false := by
    cases hall : ds.all (isRadixDigit radix)
    · rfl
    · exfalso
      have := List.all_eq_true.mp hall ',' h
      exact Bool.noConfusion ((isRadixDigit_comma radix) ▸ this)
  simp [parseRadix, hall]

theorem jsStrToNumberCore_comma (cs : List Char) (h : ',' ∈ cs) :
    jsStrToNumberCore cs = .nan := by
  rcases hcs : cs with _ | ⟨c, t⟩
  · rw [hcs] at h; simp at h
  · rw [hcs] at h
    have hradix : ∀ z : Char, startsWithChars (c :: t) ['0', z] = true → z ≠ ',' →
        ∃ t2, c :: t = '0' :: z :: t2 ∧ ',' ∈ t2 := by
      intro z hsw hz
      rcases startsWith_pair_shape (c :: t) '0' z hsw with ⟨t2, ht2⟩
      refine ⟨t2, ht2, ?_⟩
      have h2 : ',' ∈ '0' :: z :: t2 := ht2 ▸ h
      exact mem_tail_of_ne_head (mem_tail_of_ne_head h2 (by decide)) (fun hh => hz hh.symm)
    by_cases h16 : (startsWithChars (c :: t) ['0', 'x'] || startsWithChars (c :: t) ['0', 'X']) = true
    · rcases Bool.or_eq_true_iff.mp h16 with hsw | hsw
      · rcases hradix 'x' hsw (by decide) with ⟨t2, heq, hmem⟩
        rw [heq]
        simp [jsStrToNumberCore, heq ▸ h16, parseRadix_comma 16 t2 hmem,
          show ('0' :: 'x' :: t2).drop 2 = t2 from rfl]
      · rcases hradix 'X' hsw (by decide) with ⟨t2, heq, hmem⟩
        rw [heq]
        simp [jsStrToNumberCore, heq ▸ h16, parseRadix_comma 16 t2 hmem,
          show ('0' :: 'X' :: t2).drop 2 = t2 from rfl]
    · by_cases h8 : (startsWithChars (c :: t) ['0', 'o'] || startsWithChars (c :: t) ['0', 'O']) = true
      · rcases Bool.or_eq_true_iff.mp h8 with hsw | hsw
        · rcases hradix 'o' hsw (by decide) with ⟨t2, heq, hmem⟩
          rw [heq] at h16 h8 ⊢
          simp [jsStrToNumberCore, h16, h8, parseRadix_comma 8 t2 hmem,
            show ('0' :: 'o' :: t2).drop 2 = t2 from rfl]
        · rcases hradix 'O' hsw (by decide) with ⟨t2, heq, hmem⟩
          rw [heq] at h16 h8 ⊢
          simp [jsStrToNumberCore, h16, h8, parseRadix_comma 8 t2 hmem,
            show ('0' :: 'O' :: t2).drop 2 = t2 from rfl]
      · by_cases h2b : (startsWithChars (c :: t) ['0', 'b'] || startsWithChars (c :: t) ['0', 'B']) = true
        · rcases Bool.or_eq_true_iff.mp h2b with hsw | hsw
          · rcases hradix 'b' hsw (by decide) with ⟨t2, heq, hmem⟩
            rw [heq] at h16 h8 h2b ⊢
            simp [jsStrToNumberCore, h16, h8, h2b, parseRadix_comma 2 t2 hmem,
              show ('0' :: 'b' :: t2).drop 2 = t2 from rfl]
          · rcases hradix 'B' hsw (by decide) with ⟨t2, heq, hmem⟩
            rw [heq] at h16 h8 h2b ⊢
            simp [jsStrToNumberCore, h16, h8, h2b, parseRadix_comma 2 t2 hmem,
              show ('0' :: 'B' :: t2).drop 2 = t2 from rfl]
        · simp only [jsStrToNumberCore, h16, h8, h2b, Bool.false_eq_true, if_false]
          exact parseSignedDec_comma (c :: t) h

/-- Value described by claim C10 for a dot-free digit string with at most
one comma: read it as a decimal numeral with the comma as decimal point. -/
def decimalCommaValue (cs : List Char) : ℚ :=
  let intPart := cs.takeWhile Char.isDigit
  match cs.drop intPart.length with
  | [] => ((digitsVal intPart : ℕ) : ℚ)
  | _ :: frac => decExpValue ((digitsVal (intPart ++ frac) : ℕ) : ℤ) (0 - (frac.length : ℤ))

/-- The transformation claim C10 describes for `parseBRL`: remove one
optional leading `R$` prefix and surrounding whitespace (stated from the
claim's words, for comparison with the embedded `parseBRL`). -/
def claimStripLeadingBRL (raw : String) : String :=
  let t := trimChars raw.data
  if startsWithChars t "R$".data then String.mk (trimChars (t.drop 2)) else String.mk t

theorem digit_ne_dot (c : Char) (h : c.isDigit = true) : c ≠ '.' := by
  intro hh; rw [hh] at h; exact absurd h (by decide)

/-- C10 (amended): `parseBrazilianNumber` returns `undefined` on
whitespace-only input; on digit/dot strings with at most one comma it
returns the value obtained by deleting the dots and reading the comma as
decimal point; two or more commas always give `undefined`; and `parseBRL`
equals `parseBrazilianNumber` after removing the first occurrence of a
case-insensitive `R$` marker (wherever it occurs) plus the whitespace
following it, then trimming. -/
theorem c10_parse_brazilian_number :
    (∀ s : String, (∀ c ∈ s.data, jsIsWs c = true) → parseBrazilianNumber s = none) ∧
    (∀ s : String, (∀ c ∈ s.data, c.isDigit = true ∨ c = '.' ∨ c = ',') →
      s.data.count ',' ≤ 1 → (∃ c ∈ s.data, c.isDigit = true) →
      parseBrazilianNumber s = some (decimalCommaValue (s.data.filter (fun c => c ≠ '.')))) ∧
    (∀ s : String, 2 ≤ s.data.count ',' → parseBrazilianNumber s = none) ∧
    (∀ raw : String,
      parseBRL raw = parseBrazilianNumber (String.mk (trimChars (removeBRLMark raw.data)))) := by
  refine ⟨?_, ?_, ?_, fun raw => rfl⟩
  · intro s h
    simp [parseBrazilianNumber, trimChars_of_all_ws s.data h]
  · intro s hchars hcount hdig
    obtain ⟨d, hdmem, hddig⟩ := hdig
    have hnws : ∀ c ∈ s.data, jsIsWs c = false := by
      intro c hc
      cases hws : jsIsWs c
      · rfl
      · exfalso
        have hdisj : c = ' ' ∨ c = '\t' ∨ c = '\n' ∨ c = '\r' ∨ c = '\x0b' ∨ c = '\x0c' ∨
            c = '\u00A0' := by
          simpa [jsIsWs, or_assoc] using hws
        rcases hchars c hc with h1 | h1 | h1
        · rcases hdisj with h2|h2|h2|h2|h2|h2|h2 <;> (rw [h2] at h1; exact absurd h1 (by decide))
        · rcases hdisj with h2|h2|h2|h2|h2|h2|h2 <;> (rw [h1] at h2; exact absurd h2 (by decide))
        · rcases hdisj with h2|h2|h2|h2|h2|h2|h2 <;> (rw [h1] at h2; exact absurd h2 (by decide))
    have htrim : trimChars s.data = s.data := trimChars_of_no_ws s.data hnws
    have hne : s.data ≠ [] := List.ne_nil_of_mem hdmem
    have hFchars : ∀ c ∈ s.data.filter (fun c => c ≠ '.'), c.isDigit = true ∨ c = ',' := by
      intro c hc
      have hmemS := (List.mem_filter.mp hc).1
      have hnd : c ≠ '.' := by simpa using (List.mem_filter.mp hc).2
      rcases hchars c hmemS with h1 | h1 | h1
      · exact Or.inl h1
      · exact absurd h1 hnd
      · exact Or.inr h1
    have hFcount : (s.data.filter (fun c => c ≠ '.')).count ',' ≤ 1 := by
      rw [count_comma_filter_dots]; exact hcount
    have hdF : d ∈ s.data.filter (fun c => c ≠ '.') :=
      List.mem_filter.mpr ⟨hdmem, by simpa using digit_ne_dot d hddig⟩
    rcases comma_split _ hFcount with hnc | ⟨A, B, hFeq, hAc, hBc⟩
    · have hFd : ∀ c ∈ s.data.filter (fun c => c ≠ '.'), c.isDigit = true :=
        fun c hc => (hFchars c hc).resolve_right (fun hh => hnc (hh ▸ hc))
      have hFne : s.data.filter (fun c => c ≠ '.') ≠ [] := List.ne_nil_of_mem hdF
      have hrfc : replaceFirstComma (s.data.filter (fun c => c ≠ '.')) =
          s.data.filter (fun c => c ≠ '.') := replaceFirstComma_of_not_mem _ hnc
      have hnum : jsStrToNumberCore (replaceFirstComma (s.data.filter (fun c => c ≠ '.'))) =
          .val ((digitsVal (s.data.filter (fun c => c ≠ '.')) : ℕ) : ℚ) := by
        rw [hrfc, jsStrToNumberCore_digit_dot _ hFne (fun c hc => Or.inl (hFd c hc)),
          parseDec_all_digits _ hFne hFd]
      have hdcv : decimalCommaValue (s.data.filter (fun c => c ≠ '.')) =
          ((digitsVal (s.data.filter (fun c => c ≠ '.')) : ℕ) : ℚ) := by
        simp only [decimalCommaValue, takeWhile_of_all _ _ hFd, List.drop_length]
      simp only [parseBrazilianNumber, htrim, if_neg hne, hnum, hdcv]
    · have hAd : ∀ c ∈ A, c.isDigit = true := by
        intro c hc
        have : c ∈ s.data.filter (fun c => c ≠ '.') := by
          rw [hFeq]; exact List.mem_append.mpr (Or.inl hc)
        exact (hFchars c this).resolve_right (fun hh => hAc (hh ▸ hc))
      have hBd : ∀ c ∈ B, c.isDigit = true := by
        intro c hc
        have : c ∈ s.data.filter (fun c => c ≠ '.') := by
          rw [hFeq]; exact List.mem_append.mpr (Or.inr (List.mem_cons_of_mem ',' hc))
        exact (hFchars c this).resolve_right (fun hh => hBc (hh ▸ hc))
      have hABne : ¬ (A = [] ∧ B = []) := by
        rintro ⟨hA0, hB0⟩
        rw [hFeq, hA0, hB0] at hdF
        have : d = ',' := by simpa using hdF
        rw [this] at hddig
        exact absurd hddig (by decide)
      have hrfc : replaceFirstComma (s.data.filter (fun c => c ≠ '.')) = A ++ '.' :: B := by
        rw [hFeq]; exact replaceFirstComma_append A B hAc
      have hABdotne : A ++ '.' :: B ≠ [] := by
        intro hh; exact absurd (List.append_eq_nil.mp hh).2 (by simp)
      have hABchars : ∀ c ∈ A ++ '.' :: B, c.isDigit = true ∨ c = '.' := by
        intro c hc
        rcases List.mem_append.mp hc with hh | hh
        · exact Or.inl (hAd c hh)
        · rcases List.mem_cons.mp hh with hh2 | hh2
          · exact Or.inr hh2
          · exact Or.inl (hBd c hh2)
      have hnum : jsStrToNumberCore (replaceFirstComma (s.data.filter (fun c => c ≠ '.'))) =
          .val (decExpValue ((digitsVal (A ++ B) : ℕ) : ℤ) (0 - (B.length : ℤ))) := by
        rw [hrfc, jsStrToNumberCore_digit_dot _ hABdotne hABchars,
          parseDec_digits_dot A B hAd hBd hABne]
      have hdcv : decimalCommaValue (s.data.filter (fun c => c ≠ '.')) =
          decExpValue ((digitsVal (A ++ B) : ℕ) : ℤ) (0 - (B.length : ℤ)) := by
        rw [hFeq]
        have htwA : (A ++ ',' :: B).takeWhile Char.isDigit = A :=
          takeWhile_append_stop _ A B ',' hAd (by decide)
        have hdropA : (A ++ ',' :: B).drop A.length = ',' :: B := List.drop_left A (',' :: B)
        simp only [decimalCommaValue, htwA, hdropA]
      simp only [parseBrazilianNumber, htrim, if_neg hne, hnum, hdcv]
  · intro s h2c
    by_cases hT : trimChars s.data = []
    · simp [parseBrazilianNumber, hT]
    · have hcntT : 2 ≤ (trimChars s.data).count ',' := by
        rw [count_comma_trimChars]; exact h2c
      have hcntF : 2 ≤ ((trimChars s.data).filter (fun c => c ≠ '.')).count ',' := by
        rw [count_comma_filter_dots]; exact hcntT
      have hmem := comma_mem_replaceFirstComma _ hcntF
      have hnan := jsStrToNumberCore_comma _ hmem
      simp only [ne_eq, decide_not] at hnan
      simp [parseBrazilianNumber, hT, hnan]

/-- Counterexample to C10 as stated: the `R$` marker of `"12R\x24 3"` is not
a leading prefix, yet `parseBRL` removes it and parses successfully, while
the claim's described stripping leaves a non-numeric string. -/
theorem c10_parse_brazilian_number_counterexample :
    parseBRL "12R$3" = some 123 ∧
    parseBrazilianNumber (claimStripLeadingBRL "12R$3") = none ∧
    claimStripLeadingBRL "12R$3" = "12R$3" := by decide

/-- Witness for C10 on concrete inputs: the money format and a two-comma
string. -/
theorem c10_parse_brazilian_number_witness :
    parseBrazilianNumber "1.234,56" =
      some (decimalCommaValue ("1.234,56".data.filter (fun c => c ≠ '.'))) ∧
    parseBrazilianNumber "1,2,3" = none := by
  constructor
  · exact c10_parse_brazilian_number.2.1 "1.234,56" (by decide) (by decide)
      ⟨'1', by decide, by decide⟩
  · exact c10_parse_brazilian_number.2.2.1 "1,2,3" (by decide)

/-! ## Helper lemmas for the search-response parser (C3) -/

theorem tokens_get_imp (L : List (Option String)) :
    ∀ (i : ℕ) (tok : String),
      ((L.takeWhile jsTruthyStr).filterMap id).get? i = some tok →
      L.get? i = some (some tok) ∧ tok ≠ "" := by
  induction L with
  | nil => intro i tok h; simp [List.takeWhile] at h
  | cons o t ih =>
    intro i tok h
    by_cases ho : jsTruthyStr o = true
    · rcases o with _ | s
      · exact absurd ho (by simp [jsTruthyStr])
      · have hs : s ≠ "" := by simpa [jsTruthyStr] using ho
        rw [List.takeWhile_cons, if_pos ho] at h
        have hfm : (some s :: t.takeWhile jsTruthyStr).filterMap id =
            s :: (t.takeWhile jsTruthyStr).filterMap id := rfl
        rw [hfm] at h
        cases i with
        | zero =>
          rw [List.get?_cons_zero] at h
          injection h with h
          subst h
          exact ⟨rfl, hs⟩
        | succ n =>
          rw [List.get?_cons_succ] at h
          have := ih n tok h
          exact ⟨by rw [List.get?_cons_succ]; exact this.1, this.2⟩
    · rw [List.takeWhile_cons, if_neg ho] at h
      simp at h

theorem tokens_length_eq (L : List (Option String)) :
    ((L.takeWhile jsTruthyStr).filterMap id).length = (L.takeWhile jsTruthyStr).length := by
  induction L with
  | nil => rfl
  | cons o t ih =>
    by_cases ho : jsTruthyStr o = true
    · rcases o with _ | s
      · exact absurd ho (by simp [jsTruthyStr])
      · rw [List.takeWhile_cons, if_pos ho]
        have hfm : (some s :: t.takeWhile jsTruthyStr).filterMap id =
            s :: (t.takeWhile jsTruthyStr).filterMap id := rfl
        rw [hfm, List.length_cons, List.length_cons, ih]
    · rw [List.takeWhile_cons, if_neg ho]
      rfl

theorem tokens_boundary (L : List (Option String)) :
    jsTruthyStr ((L.get? (L.takeWhile jsTruthyStr).length).join) = false := by
  induction L with
  | nil => rfl
  | cons o t ih =>
    by_cases ho : jsTruthyStr o = true
    · rw [List.takeWhile_cons, if_pos ho, List.length_cons, List.get?_cons_succ]
      exact ih
    · rw [List.takeWhile_cons, if_neg ho, List.length_nil, List.get?_cons_zero]
      simpa using ho

/-- Is a JS number a finite integer (the condition `parseIntStrict`
accepts)? -/
def jsFiniteIntNum (n : JsNum) : Bool :=
  match n with
  | .val q => q.den = 1
  | _ => false

/-- Decimal integer numeral with optional sign: the plain reading of the
claim's "integer string" (stated from the claim's words, for the
counterexample). -/
def isIntegerNumeral (s : String) : Bool :=
  match s.data with
  | '+' :: d => d ≠ [] && d.all Char.isDigit
  | '-' :: d => d ≠ [] && d.all Char.isDigit
  | d => d ≠ [] && d.all Char.isDigit

theorem parseIntStrict_error_iff (raw : Option String) :
    parseIntStrict raw = .error () ↔
      jsFiniteIntNum (jsStrToNumberCore (trimChars ((raw.getD "").data))) = false := by
  rcases hn : jsStrToNumberCore (trimChars ((raw.getD "").data)) with _ | b | q
  · simp [parseIntStrict, hn, jsFiniteIntNum]
  · simp [parseIntStrict, hn, jsFiniteIntNum]
  · by_cases hden : q.den = 1
    · simp [parseIntStrict, hn, jsFiniteIntNum, hden]
    · simp [parseIntStrict, hn, jsFiniteIntNum, hden]

theorem parseSearchResponse_error_iff (doc : SearchDoc) :
    parseSearchResponse doc = .error () ↔
      (parseIntStrict doc.qtdPagVal = .error () ∨
        parseIntStrict doc.qtdRegistrosVal = .error () ∨ imovTokens doc = []) := by
  rcases h1 : parseIntStrict doc.qtdPagVal with e1 | v1
  · cases e1
    simp [parseSearchResponse, h1]
  · rcases h2 : parseIntStrict doc.qtdRegistrosVal with e2 | v2
    · cases e2
      simp [parseSearchResponse, h1, h2]
    · by_cases h3 : imovTokens doc = []
      · simp [parseSearchResponse, h1, h2, h3]
      · simp [parseSearchResponse, h1, h2, h3]

/-- C3 (amended): `parseSearchResponse` returns the pagination tokens read
from `hdnImov1, hdnImov2, ...` in index order up to the first missing or
empty one (token at index `i` comes from `hdnImov(i+1)`, i.e. page `i+1`);
it throws when there is no `hdnImov1` value; and it throws for `hdnQtdPag`
or `hdnQtdRegistros` exactly when the JavaScript `Number` conversion of the
trimmed value is not a finite integer (a missing or empty value converts to
0 and is accepted). -/
theorem c3_parse_search_response :
    (∀ doc res, parseSearchResponse doc = .ok res →
      res.hdnImovByPage = imovTokens doc ∧ res.hdnImovByPage ≠ []) ∧
    (∀ doc (i : ℕ) (tok : String), (imovTokens doc).get? i = some tok →
      imovValAt doc i = some tok ∧ tok ≠ "") ∧
    (∀ doc, jsTruthyStr (imovValAt doc (imovTokens doc).length) = false) ∧
    (∀ doc, jsTruthyStr (imovValAt doc 0) = false → parseSearchResponse doc = .error ()) ∧
    (∀ doc, parseSearchResponse doc = .error () ↔
      (parseIntStrict doc.qtdPagVal = .error () ∨
        parseIntStrict doc.qtdRegistrosVal = .error () ∨ imovTokens doc = [])) ∧
    (∀ raw, parseIntStrict raw = .error () ↔
      jsFiniteIntNum (jsStrToNumberCore (trimChars ((raw.getD "").data))) = false) := by
  refine ⟨?_, ?_, ?_, ?_, parseSearchResponse_error_iff, parseIntStrict_error_iff⟩
  · intro doc res hok
    rcases h1 : parseIntStrict doc.qtdPagVal with e1 | v1
    · rw [parseSearchResponse, h1] at hok; exact absurd hok (by simp)
    · rcases h2 : parseIntStrict doc.qtdRegistrosVal with e2 | v2
      · rw [parseSearchResponse, h1, h2] at hok; exact absurd hok (by simp)
      · by_cases h3 : imovTokens doc = []
        · rw [parseSearchResponse, h1, h2] at hok
          simp only [h3, if_pos rfl] at hok
          exact absurd hok (by simp)
        · rw [parseSearchResponse, h1, h2] at hok
          simp only [h3, if_neg h3] at hok
          injection hok with hok
          subst hok
          exact ⟨rfl, h3⟩
  · intro doc i tok h
    have := tokens_get_imp doc.imovVals i tok h
    unfold imovValAt
    rw [this.1]
    exact ⟨rfl, this.2⟩
  · intro doc
    unfold imovValAt
    rw [show (imovTokens doc).length = (doc.imovVals.takeWhile jsTruthyStr).length from
      tokens_length_eq doc.imovVals]
    exact tokens_boundary doc.imovVals
  · intro doc h0
    rw [parseSearchResponse_error_iff]
    right; right
    unfold imovTokens
    rcases hL : doc.imovVals with _ | ⟨o, t⟩
    · rfl
    · have : jsTruthyStr o = false := by
        have := h0
        unfold imovValAt at this
        rw [hL, List.get?_cons_zero] at this
        simpa using this
      rw [List.takeWhile_cons, if_neg (by rw [this]; exact Bool.false_ne_true)]
      rfl

/-- Counterexample to C3 as stated: an empty `hdnQtdPag` value is not an
integer string, yet the parser accepts it (JS `Number("")` is 0). -/
theorem c3_parse_search_response_counterexample :
    isIntegerNumeral "" = false ∧
    parseSearchResponse ⟨some "", some "7", none, [some "tok"]⟩ =
      .ok ⟨["tok"], 1, 7, none⟩ :=
  ⟨by decide, rfl⟩

/-- Witness for C3 on a concrete document with three tokens. -/
theorem c3_parse_search_response_witness :
    parseSearchResponse ⟨some "3", some "50", none, [some "t1", some "t2", none]⟩ =
      .ok ⟨["t1", "t2"], 3, 50, none⟩ ∧
    (["t1", "t2"] : List String) = imovTokens ⟨some "3", some "50", none, [some "t1", some "t2", none]⟩ ∧
    imovValAt ⟨some "3", some "50", none, [some "t1", some "t2", none]⟩ 1 = some "t2" := by
  refine ⟨rfl, ?_, ?_⟩
  · exact (c3_parse_search_response.1 ⟨some "3", some "50", none, [some "t1", some "t2", none]⟩
      ⟨["t1", "t2"], 3, 50, none⟩ rfl).1
  · exact (c3_parse_search_response.2.1 ⟨some "3", some "50", none, [some "t1", some "t2", none]⟩
      1 "t2" (by decide)).1

/-! ## C7: the request sequence -/

/-- C7 (amended): `runSearch` issues the session GET and then the search
POST (in that order, and nothing else); given a POST response it throws
when the status is not 200 and otherwise parses the body (and can then
still throw on a parse failure); a GET transport error stops the sequence
after the GET. `fetchListPageHtml` and `fetchDetailPageHtml` issue exactly
one POST each and, given a response, throw exactly when its status is not
200, otherwise returning the body text unchanged. -/
theorem c7_request_sequence :
    (∀ client load payload (g : HttpResponse), client searchGetCall = .ok g →
      (runSearch client load payload).2 = [searchGetCall, searchPostCall payload]) ∧
    (∀ client load payload, client searchGetCall = .error () →
      runSearch client load payload = (.error (), [searchGetCall])) ∧
    (∀ client load payload (g res : HttpResponse), client searchGetCall = .ok g →
      client (searchPostCall payload) = .ok res →
      (res.status ≠ 200 → (runSearch client load payload).1 = .error ()) ∧
      (res.status = 200 →
        (runSearch client load payload).1 = parseSearchResponse (load res.text))) ∧
    (∀ client hdnImov (res : HttpResponse), client (listPageCall hdnImov) = .ok res →
      fetchListPageHtml client hdnImov =
        (if res.status ≠ 200 then .error () else .ok res.text, [listPageCall hdnImov])) ∧
    (∀ client imovelId (res : HttpResponse), client (detailCall imovelId) = .ok res →
      fetchDetailPageHtml client imovelId =
        (if res.status ≠ 200 then .error () else .ok res.text, [detailCall imovelId])) := by
  refine ⟨?_, ?_, ?_, ?_, ?_⟩
  · intro client load payload g hg
    rcases hp : client (searchPostCall payload) with e | res
    · cases e; simp [runSearch, hg, hp]
    · simp [runSearch, hg, hp]
  · intro client load payload hg
    simp [runSearch, hg]
  · intro client load payload g res hg hp
    constructor
    · intro hs
      simp [runSearch, hg, hp, hs]
    · intro hs
      simp [runSearch, hg, hp, hs]
  · intro client hdnImov res hres
    simp [fetchListPageHtml, hres]
  · intro client imovelId res hres
    simp [fetchDetailPageHtml, hres]

/-- Client oracle used by the C7 counterexample and witness: every GET and
POST succeeds with status 200; POST bodies are `"body"`. -/
def cexClient : HttpCall → Except Unit HttpResponse := fun c =>
  match c.method with
  | .get => .ok ⟨200, ""⟩
  | .post => .ok ⟨200, "body"⟩

/-- Loader oracle whose search document has a non-numeric `hdnQtdPag`. -/
def cexLoad : String → SearchDoc := fun _ => ⟨some "x", some "7", none, [some "tok"]⟩

/-- Counterexample to C7 as stated: the POST response has status 200, yet
`runSearch` throws (the body fails to parse), so "throws iff the POST
status is not 200" is false. -/
theorem c7_request_sequence_counterexample :
    (runSearch cexClient cexLoad []).1 = .error () ∧
    cexClient (searchPostCall []) = .ok ⟨200, "body"⟩ :=
  ⟨rfl, rfl⟩

/-- Witness for C7: the list-page fetcher on the all-200 client. -/
theorem c7_request_sequence_witness :
    fetchListPageHtml cexClient "tok" = (.ok "body", [listPageCall "tok"]) := by
  have h := c7_request_sequence.2.2.2.1 cexClient "tok" ⟨200, "body"⟩ rfl
  simpa using h

/-- C8: the scrape persists one CSV record per sorted item under the fixed
fifteen-column header, in column order, and the returned row count equals
the number of records written. -/
theorem c8_csv_tabular_rows (loadPage : ℕ → String → List ListCard) (uf cidade : String)
    (tokens : List String) (maxPages : Option ℕ) :
    (scrapeModel loadPage uf cidade tokens maxPages).1.header =
      ["imovelId", "uf", "cidadeId", "titulo", "modalidade", "tipoImovel", "areaUtilM2",
        "quartos", "vagas", "valorAvaliacao", "valorMinimo", "descontoPercent", "enderecoRaw",
        "observacoesRaw", "page"] ∧
    (scrapeModel loadPage uf cidade tokens maxPages).1.records =
      (scrapeSorted loadPage uf cidade tokens maxPages).map csvRecordOf ∧
    (scrapeModel loadPage uf cidade tokens maxPages).2 =
      (scrapeModel loadPage uf cidade tokens maxPages).1.records.length ∧
    (∀ it : ImovelListItem, (csvRecordOf it).length = 15) := by
  refine ⟨rfl, rfl, ?_, fun it => rfl⟩
  simp [scrapeModel, writeImoveisCsv]

/-! ## Helper lemmas for the stable sort (C9) -/

theorem insertByLe_perm {α : Type} (le : α → α → Bool) (a : α) (l : List α) :
    (insertByLe le a l).Perm (a :: l) := by
  induction l with
  | nil => exact List.Perm.refl _
  | cons b bs ih =>
    by_cases h : le b a = true
    · rw [insertByLe, if_pos h]
      exact (ih.cons b).trans (List.Perm.swap a b bs)
    · rw [insertByLe, if_neg h]

theorem foldl_insert_perm {α : Type} (le : α → α → Bool) :
    ∀ (l acc : List α), (List.foldl (fun a x => insertByLe le x a) acc l).Perm (acc ++ l) := by
  intro l
  induction l with
  | nil => intro acc; simp
  | cons x xs ih =>
    intro acc
    have h1 := ih (insertByLe le x acc)
    have h2 : (insertByLe le x acc ++ xs).Perm ((x :: acc) ++ xs) :=
      (insertByLe_perm le x acc).append_right xs
    have h3 : ((x :: acc) ++ xs).Perm (acc ++ x :: xs) := by
      rw [List.cons_append]
      exact List.perm_middle.symm
    exact (h1.trans h2).trans h3

theorem sortByLe_perm {α : Type} (le : α → α → Bool) (l : List α) :
    (sortByLe le l).Perm l := by
  have := foldl_insert_perm le l []
  simpa [sortByLe] using this

theorem insertByLe_pairwise {α : Type} (le : α → α → Bool)
    (htot : ∀ a b, le a b = false → le b a = true)
    (htrans : ∀ a b c, le a b = true → le b c = true → le a c = true)
    (a : α) (l : List α) (h : l.Pairwise (fun x y => le x y = true)) :
    (insertByLe le a l).Pairwise (fun x y => le x y = true) := by
  induction l with
  | nil => simp [insertByLe]
  | cons b bs ih =>
    rcases List.pairwise_cons.mp h with ⟨hb, hbs⟩
    by_cases hba : le b a = true
    · rw [insertByLe, if_pos hba]
      refine List.pairwise_cons.mpr ⟨?_, ih hbs⟩
      intro x hx
      have hmem : x ∈ a :: bs := (insertByLe_perm le a bs).mem_iff.mp hx
      rcases List.mem_cons.mp hmem with hh | hh
      · rw [hh]; exact hba
      · exact hb x hh
    · rw [insertByLe, if_neg hba]
      refine List.pairwise_cons.mpr ⟨?_, h⟩
      intro x hx
      have hab : le a b = true := htot b a (by simpa using hba)
      rcases List.mem_cons.mp hx with hh | hh
      · rw [hh]; exact hab
      · exact htrans a b x hab (hb x hh)

theorem sortByLe_pairwise {α : Type} (le : α → α → Bool)
    (htot : ∀ a b, le a b = false → le b a = true)
    (htrans : ∀ a b c, le a b = true → le b c = true → le a c = true)
    (l : List α) : (sortByLe le l).Pairwise (fun x y => le x y = true) := by
  have hgen : ∀ (l acc : List α), acc.Pairwise (fun x y => le x y = true) →
      (List.foldl (fun a x => insertByLe le x a) acc l).Pairwise (fun x y => le x y = true) := by
    intro l
    induction l with
    | nil => intro acc h; exact h
    | cons x xs ih =>
      intro acc h
      exact ih (insertByLe le x acc) (insertByLe_pairwise le htot htrans x acc h)
  exact hgen l [] List.Pairwise.nil

theorem pairwise_strict_perm_eq {α : Type} (lt : α → α → Prop)
    (hasym : ∀ a b, lt a b → lt b a → False) :
    ∀ l₁ l₂ : List α, l₁.Perm l₂ → l₁.Pairwise lt → l₂.Pairwise lt → l₁ = l₂ := by
  intro l₁
  induction l₁ with
  | nil =>
    intro l₂ hp _ _
    exact (hp.symm.eq_nil).symm
  | cons a t ih =>
    intro l₂ hp h1 h2
    rcases l₂ with _ | ⟨b, t₂⟩
    · exact absurd hp.eq_nil (by simp)
    · by_cases hab : a = b
      · subst hab
        have hpt : t.Perm t₂ := hp.cons_inv
        rw [ih t₂ hpt (List.Pairwise.of_cons h1) (List.Pairwise.of_cons h2)]
      · exfalso
        have hbmem : b ∈ a :: t := hp.mem_iff.mpr (List.mem_cons_self b t₂)
        have hamem : a ∈ b :: t₂ := hp.mem_iff.mp (List.mem_cons_self a t)
        have hbt : b ∈ t := by
          rcases List.mem_cons.mp hbmem with hh | hh
          · exact absurd hh.symm hab
          · exact hh
        have hat : a ∈ t₂ := by
          rcases List.mem_cons.mp hamem with hh | hh
          · exact absurd hh hab
          · exact hh
        exact hasym a b (List.rel_of_pairwise_cons h1 hbt) (List.rel_of_pairwise_cons h2 hat)

theorem nodup_map_pairwise {α β : Type} (f : α → β) :
    ∀ l : List α, (l.map f).Nodup → l.Pairwise (fun a b => f a ≠ f b) := by
  intro l
  induction l with
  | nil => intro _; exact List.Pairwise.nil
  | cons a t ih =>
    intro h
    rw [List.map_cons, List.nodup_cons] at h
    exact List.Pairwise.cons (fun b hb heq => h.1 (heq ▸ List.mem_map_of_mem f hb)) (ih h.2)

theorem lexLe_nil_left (b : List Char) : lexLe [] b = true := by
  cases b <;> rfl

theorem lexLe_total : ∀ a b : List Char, lexLe a b = false → lexLe b a = true := by
  intro a
  induction a with
  | nil => intro b h; rw [lexLe_nil_left] at h; exact Bool.noConfusion h
  | cons x xs ih =>
    intro b h
    rcases b with _ | ⟨y, ys⟩
    · exact lexLe_nil_left _
    · by_cases hxy : x < y
      · rw [lexLe, if_pos hxy] at h; exact Bool.noConfusion h
      · by_cases hyx : y < x
        · rw [lexLe, if_pos hyx]
        · have heq : x = y := le_antisymm (not_lt.mp hyx) (not_lt.mp hxy)
          subst heq
          rw [lexLe, if_neg hxy, if_neg hyx] at h
          rw [lexLe, if_neg hyx, if_neg hxy]
          exact ih ys h

theorem lexLe_trans : ∀ a b c : List Char,
    lexLe a b = true → lexLe b c = true → lexLe a c = true := by
  intro a
  induction a with
  | nil => intro b c _ _; exact lexLe_nil_left c
  | cons x xs ih =>
    intro b c hab hbc
    rcases b with _ | ⟨y, ys⟩
    · rw [lexLe] at hab; exact Bool.noConfusion hab
    · rcases c with _ | ⟨z, zs⟩
      · rw [lexLe] at hbc; exact Bool.noConfusion hbc
      · by_cases hxy : x < y
        · by_cases hyz : y < z
          · rw [lexLe, if_pos (lt_trans hxy hyz)]
          · by_cases hzy : z < y
            · rw [lexLe, if_neg hyz, if_pos hzy] at hbc; exact Bool.noConfusion hbc
            · have heq : y = z := le_antisymm (not_lt.mp hzy) (not_lt.mp hyz)
              subst heq
              rw [lexLe, if_pos hxy]
        · by_cases hyx : y < x
          · rw [lexLe, if_neg hxy, if_pos hyx] at hab; exact Bool.noConfusion hab
          · have heq : x = y := le_antisymm (not_lt.mp hyx) (not_lt.mp hxy)
            subst heq
            rw [lexLe, if_neg hxy, if_neg hyx] at hab
            by_cases hxz : x < z
            · rw [lexLe, if_pos hxz]
            · by_cases hzx : z < x
              · rw [lexLe, if_neg hxz, if_pos hzx] at hbc; exact Bool.noConfusion hbc
              · have heq2 : x = z := le_antisymm (not_lt.mp hzx) (not_lt.mp hxz)
                subst heq2
                rw [lexLe, if_neg hxz, if_neg hzx] at hbc ⊢
                exact ih ys zs hab hbc

theorem lexLe_antisymm : ∀ a b : List Char,
    lexLe a b = true → lexLe b a = true → a = b := by
  intro a
  induction a with
  | nil =>
    intro b _ hba
    rcases b with _ | ⟨y, ys⟩
    · rfl
    · rw [lexLe] at hba; exact Bool.noConfusion hba
  | cons x xs ih =>
    intro b hab hba
    rcases b with _ | ⟨y, ys⟩
    · rw [lexLe] at hab; exact Bool.noConfusion hab
    · by_cases hxy : x < y
      · rw [lexLe, if_neg (lt_asymm hxy), if_pos hxy] at hba; exact Bool.noConfusion hba
      · by_cases hyx : y < x
        · rw [lexLe, if_neg (lt_asymm hyx), if_pos hyx] at hab; exact Bool.noConfusion hab
        · have heq : x = y := le_antisymm (not_lt.mp hyx) (not_lt.mp hxy)
          subst heq
          rw [lexLe, if_neg hxy, if_neg hyx] at hab hba
          rw [ih ys hab hba]

theorem listCmpLe_total : ∀ a b : ImovelListItem,
    listCmpLe a b = false → listCmpLe b a = true := by
  intro a b h
  unfold listCmpLe at *
  by_cases hp : a.page = b.page
  · rw [if_pos hp] at h
    rw [if_pos hp.symm]
    exact lexLe_total _ _ h
  · rw [if_neg hp] at h
    rw [if_neg (fun hh => hp hh.symm)]
    have h1 : ¬ a.page < b.page := of_decide_eq_false h
    have h2 : b.page < a.page := lt_of_le_of_ne (not_lt.mp h1) (fun hh => hp hh.symm)
    simpa using h2

theorem listCmpLe_trans : ∀ a b c : ImovelListItem,
    listCmpLe a b = true → listCmpLe b c = true → listCmpLe a c = true := by
  intro a b c hab hbc
  unfold listCmpLe at *
  by_cases hpab : a.page = b.page
  · by_cases hpbc : b.page = c.page
    · rw [if_pos hpab] at hab
      rw [if_pos hpbc] at hbc
      rw [if_pos (hpab.trans hpbc)]
      exact lexLe_trans _ _ _ hab hbc
    · rw [if_neg hpbc] at hbc
      have h2 : b.page < c.page := of_decide_eq_true hbc
      have hac : a.page < c.page := hpab ▸ h2
      rw [if_neg (fun hh => absurd (hh ▸ hac) (lt_irrefl _)), decide_eq_true hac]
  · rw [if_neg hpab] at hab
    have h1 : a.page < b.page := of_decide_eq_true hab
    by_cases hpbc : b.page = c.page
    · have hac : a.page < c.page := hpbc ▸ h1
      rw [if_neg (fun hh => absurd (hh ▸ hac) (lt_irrefl _)), decide_eq_true hac]
    · rw [if_neg hpbc] at hbc
      have h2 : b.page < c.page := of_decide_eq_true hbc
      have hac : a.page < c.page := lt_trans h1 h2
      rw [if_neg (fun hh => absurd (hh ▸ hac) (lt_irrefl _)), decide_eq_true hac]

/-- The sort key of one item (page, then id). -/
def itemKey (it : ImovelListItem) : ℕ × String :=
  (it.page, it.imovelId)

theorem listCmpLe_antisymm_key (a b : ImovelListItem)
    (hab : listCmpLe a b = true) (hba : listCmpLe b a = true) : itemKey a = itemKey b := by
  unfold listCmpLe at hab hba
  by_cases hp : a.page = b.page
  · rw [if_pos hp] at hab
    rw [if_pos hp.symm] at hba
    have hdata : a.imovelId.data = b.imovelId.data := lexLe_antisymm _ _ hab hba
    have hid : a.imovelId = b.imovelId := congrArg String.mk hdata
    unfold itemKey
    rw [hp, hid]
  · exfalso
    rw [if_neg hp] at hab
    rw [if_neg (fun hh => hp hh.symm)] at hba
    exact lt_asymm (of_decide_eq_true hab) (of_decide_eq_true hba)

theorem find?_key_mem (l : List (ℕ × List ImovelListItem)) (i : ℕ)
    (x : ℕ × List ImovelListItem) (hnd : (l.map Prod.fst).Nodup) (hx : x ∈ l) (hxi : x.1 = i) :
    l.find? (fun c => c.1 = i) = some x := by
  induction l with
  | nil => simp at hx
  | cons c t ih =>
    rw [List.map_cons, List.nodup_cons] at hnd
    by_cases hc : c.1 = i
    · have hx' : x = c := by
        rcases List.mem_cons.mp hx with hh | hh
        · exact hh
        · exfalso
          apply hnd.1
          rw [show c.1 = x.1 from hc.trans hxi.symm]
          exact List.mem_map_of_mem Prod.fst hh
      rw [hx']
      rw [List.find?_cons, decide_eq_true hc]
    · have hxt : x ∈ t := by
        rcases List.mem_cons.mp hx with hh | hh
        · exact absurd (hh ▸ hxi) hc
        · exact hh
      rw [List.find?_cons, decide_eq_false hc]
      exact ih hnd.2 hxt

/-- C9 (amended): `scrapeCaixa` stably sorts the concatenated per-page item
lists by page and then `imovelId` (lexicographic); the `Promise.all`
reassembly makes the result independent of the workers' completion order;
and whenever no two items share both page and `imovelId`, the persisted row
order is a function only of the multiset of parsed items. -/
theorem c9_sort_determinism :
    (∀ (loadPage : ℕ → String → List ListCard) (uf cidade : String)
        (tokens : List String) (maxPages : Option ℕ),
      (scrapeSorted loadPage uf cidade tokens maxPages).Perm
        (scrapeCollected loadPage uf cidade tokens maxPages) ∧
      (scrapeSorted loadPage uf cidade tokens maxPages).Pairwise
        (fun a b => listCmpLe a b = true)) ∧
    (∀ l₁ l₂ : List ImovelListItem, l₁.Perm l₂ → (l₁.map itemKey).Nodup →
      sortByLe listCmpLe l₁ = sortByLe listCmpLe l₂) ∧
    (∀ (n : ℕ) (c₁ c₂ : List (ℕ × List ImovelListItem)), c₁.Perm c₂ →
      (c₁.map Prod.fst).Nodup → promiseAllAssemble n c₁ = promiseAllAssemble n c₂) := by
  refine ⟨?_, ?_, ?_⟩
  · intro loadPage uf cidade tokens maxPages
    exact ⟨sortByLe_perm listCmpLe _,
      sortByLe_pairwise listCmpLe listCmpLe_total listCmpLe_trans _⟩
  · intro l₁ l₂ hp hnd
    have hs₁ := sortByLe_perm listCmpLe l₁
    have hs₂ := sortByLe_perm listCmpLe l₂
    have hperm : (sortByLe listCmpLe l₁).Perm (sortByLe listCmpLe l₂) :=
      (hs₁.trans hp).trans hs₂.symm
    have hnd₁ : ((sortByLe listCmpLe l₁).map itemKey).Nodup :=
      ((hs₁.map itemKey).nodup_iff).mpr hnd
    have hnd₂ : ((sortByLe listCmpLe l₂).map itemKey).Nodup :=
      ((hs₂.map itemKey).nodup_iff).mpr (((hp.map itemKey).nodup_iff).mp hnd)
    have hpw₁ : (sortByLe listCmpLe l₁).Pairwise
        (fun a b => listCmpLe a b = true ∧ itemKey a ≠ itemKey b) :=
      (sortByLe_pairwise listCmpLe listCmpLe_total listCmpLe_trans l₁).and
        (nodup_map_pairwise itemKey _ hnd₁)
    have hpw₂ : (sortByLe listCmpLe l₂).Pairwise
        (fun a b => listCmpLe a b = true ∧ itemKey a ≠ itemKey b) :=
      (sortByLe_pairwise listCmpLe listCmpLe_total listCmpLe_trans l₂).and
        (nodup_map_pairwise itemKey _ hnd₂)
    exact pairwise_strict_perm_eq _
      (fun a b h1 h2 => h1.2 (listCmpLe_antisymm_key a b h1.1 h2.1))
      _ _ hperm hpw₁ hpw₂
  · intro n c₁ c₂ hp hnd
    unfold promiseAllAssemble
    apply List.map_congr_left
    intro i _
    rcases hf : c₁.find? (fun c => c.1 = i) with _ | x
    · have hnone : c₂.find? (fun c => decide (c.1 = i)) = none := by
        rw [List.find?_eq_none] at hf ⊢
        intro x hx
        exact hf x (hp.mem_iff.mpr hx)
      rw [hf, hnone]
    · have hpx := List.find?_some hf
      have hxi : x.1 = i := of_decide_eq_true (by simpa using hpx)
      have hmem : x ∈ c₁ := List.mem_of_find?_eq_some hf
      have hnd₂ : (c₂.map Prod.fst).Nodup := ((hp.map Prod.fst).nodup_iff).mp hnd
      rw [hf, find?_key_mem c₂ i x hnd₂ (hp.mem_iff.mp hmem) hxi]

/-- Result cards used by the C9 counterexample: same `imovelId`, different
titles. -/
def c9CardA : ListCard :=
  { onclickDetalhe := some "detalhe_imovel(10)", onclickDetalheImg := none,
    anchorDetalheText := "a", contadorBoldText := "", cardText := "", detailsRawLines := [] }

/-- Second card of the C9 counterexample. -/
def c9CardB : ListCard :=
  { onclickDetalhe := some "detalhe_imovel(10)", onclickDetalheImg := none,
    anchorDetalheText := "b", contadorBoldText := "", cardText := "", detailsRawLines := [] }

/-- Page loader returning the two cards in one order. -/
def c9Load1 : ℕ → String → List ListCard := fun _ _ => [c9CardA, c9CardB]

/-- Page loader returning the two cards in the other order. -/
def c9Load2 : ℕ → String → List ListCard := fun _ _ => [c9CardB, c9CardA]

/-- Counterexample to C9 as stated: the two runs parse the same multiset of
items (same page, same `imovelId`, different titles), yet the persisted
records differ, so the row order is not a function of the multiset alone. -/
theorem c9_sort_determinism_counterexample :
    (scrapeCollected c9Load1 "RJ" "1" ["t"] none).Perm
      (scrapeCollected c9Load2 "RJ" "1" ["t"] none) ∧
    (scrapeModel c9Load1 "RJ" "1" ["t"] none).1.records ≠
      (scrapeModel c9Load2 "RJ" "1" ["t"] none).1.records := by
  constructor
  · decide
  · decide

/-- Witness for C9 on concrete lists with distinct keys and a permuted
completion order. -/
theorem c9_sort_determinism_witness :
    sortByLe listCmpLe
        [(⟨"5", "RJ", "1", "x", none, none, none, none, none, none, none, none, none, none,
          2⟩ : ImovelListItem),
          ⟨"4", "RJ", "1", "y", none, none, none, none, none, none, none, none, none, none, 1⟩] =
      sortByLe listCmpLe
        [⟨"4", "RJ", "1", "y", none, none, none, none, none, none, none, none, none, none, 1⟩,
          ⟨"5", "RJ", "1", "x", none, none, none, none, none, none, none, none, none, none, 2⟩] ∧
    promiseAllAssemble 2 [(1, []), (0, [])] = promiseAllAssemble 2 [(0, []), (1, [])] := by
  constructor
  · exact c9_sort_determinism.2.1 _ _ (by decide) (by decide)
  · exact c9_sort_determinism.2.2 2 _ _ (by decide) (by decide)

/-! ## Helper lemmas for the list-page parser (C4) -/

theorem eatClassPlus_spec (p : Char → Bool) (cs run rest : List Char)
    (h : eatClassPlus p cs = some (run, rest)) :
    run ≠ [] ∧ ∀ c ∈ run, p c = true := by
  unfold eatClassPlus at h
  by_cases hr : cs.takeWhile p = []
  · rw [if_pos hr] at h; exact Option.noConfusion h
  · rw [if_neg hr] at h
    simp only [Option.some.injEq, Prod.mk.injEq] at h
    refine ⟨h.1 ▸ hr, ?_⟩
    intro c hc
    rw [← h.1] at hc
    exact List.mem_takeWhile_imp hc

theorem tryDetalheId_spec (cs : List Char) (r : String) (h : tryDetalheId cs = some r) :
    r ≠ "" ∧ ∀ c ∈ r.data, c.isDigit = true := by
  unfold tryDetalheId at h
  rcases h1 : eatLit "detalhe_imovel(".data cs with _ | r1
  · rw [h1] at h; exact Option.noConfusion h
  · rw [h1] at h
    dsimp only at h
    rcases h2 : eatClassPlus Char.isDigit r1 with _ | ⟨ds, r2⟩
    · rw [h2] at h; exact Option.noConfusion h
    · rw [h2] at h
      dsimp only at h
      rcases h3 : eatLit ")".data r2 with _ | r3
      · rw [h3] at h; exact Option.noConfusion h
      · rw [h3] at h
        dsimp only at h
        have hds := eatClassPlus_spec Char.isDigit r1 ds r2 h2
        have hr : String.mk ds = r := Option.some.inj h
        constructor
        · intro hh
          exact hds.1 (congrArg String.data ((hr.trans hh)))
        · intro c hc
          rw [← hr] at hc
          exact hds.2 c hc

theorem scanFirst_prop {α : Type} (f : List Char → Option α) (P : α → Prop)
    (hf : ∀ cs r, f cs = some r → P r) :
    ∀ cs r, scanFirst f cs = some r → P r := by
  intro cs
  induction cs with
  | nil => intro r h; exact hf [] r (by simpa [scanFirst] using h)
  | cons c t ih =>
    intro r h
    rw [scanFirst] at h
    rcases hx : f (c :: t) with _ | r0
    · rw [hx] at h; exact ih r h
    · rw [hx] at h
      exact (Option.some.inj h) ▸ hf (c :: t) r0 hx

theorem firstMatchNorm_spec (o : Option String) (r : String)
    (h : firstMatchNorm o = some r) :
    r ≠ "" ∧ ∃ s, o = some s ∧ r.data = trimChars s.data := by
  rcases o with _ | s
  · exact Option.noConfusion h
  · simp only [firstMatchNorm] at h
    by_cases ht : trimChars s.data = []
    · rw [if_pos ht] at h; exact Option.noConfusion h
    · rw [if_neg ht] at h
      have hr : String.mk (trimChars s.data) = r := Option.some.inj h
      refine ⟨?_, s, rfl, by rw [← hr]⟩
      intro hh
      exact ht (congrArg String.data (hr.trans hh))

theorem mem_trimChars (cs : List Char) (c : Char) (h : c ∈ trimChars cs) : c ∈ cs := by
  unfold trimChars at h
  rw [List.mem_reverse] at h
  have h2 := (List.dropWhile_sublist _).subset h
  rw [List.mem_reverse] at h2
  exact (List.dropWhile_sublist _).subset h2

theorem parseListCard_some (uf cidadeId : String) (page : ℕ) (card : ListCard)
    (it : ImovelListItem) (h : parseListCard uf cidadeId page card = some it) :
    it.uf = uf ∧ it.cidadeId = cidadeId ∧ it.page = page ∧
    firstMatchNorm (scanFirst tryDetalheId (cardOnclick card).data) = some it.imovelId := by
  simp only [parseListCard] at h
  rcases hm : firstMatchNorm (scanFirst tryDetalheId (cardOnclick card).data) with _ | imId
  · rw [hm] at h; exact Option.noConfusion h
  · rw [hm] at h
    dsimp only at h
    have h2 := Option.some.inj h
    subst h2
    refine ⟨rfl, rfl, rfl, ?_⟩
    simp [hm]

/-- C4: every item the list parser returns carries the given `uf`,
`cidadeId` and `page`, and its `imovelId` is a nonempty decimal-digit
string captured from a `detalhe_imovel(N)` onclick of one of the cards; a
card with no such onclick contributes no item. -/
theorem c4_list_page_items (uf cidadeId : String) (page : ℕ) :
    (∀ (cards : List ListCard) (it : ImovelListItem),
      it ∈ parseListPageHtml cards uf cidadeId page →
      it.uf = uf ∧ it.cidadeId = cidadeId ∧ it.page = page ∧
      it.imovelId ≠ "" ∧ (∀ c ∈ it.imovelId.data, c.isDigit = true) ∧
      ∃ card ∈ cards,
        firstMatchNorm (scanFirst tryDetalheId (cardOnclick card).data) = some it.imovelId) ∧
    (∀ (pre post : List ListCard) (c : ListCard), c.onclickDetalhe = none →
      c.onclickDetalheImg = none →
      parseListPageHtml (pre ++ c :: post) uf cidadeId page =
        parseListPageHtml (pre ++ post) uf cidadeId page) := by
  constructor
  · intro cards it hmem
    obtain ⟨card, hcard, hsome⟩ := List.mem_filterMap.mp hmem
    have hfields := parseListCard_some uf cidadeId page card it hsome
    have hnorm := firstMatchNorm_spec _ _ hfields.2.2.2
    obtain ⟨s, hscan, hdata⟩ := hnorm.2
    have hsdigits : s ≠ "" ∧ ∀ c ∈ s.data, c.isDigit = true :=
      scanFirst_prop tryDetalheId _ tryDetalheId_spec _ s hscan
    refine ⟨hfields.1, hfields.2.1, hfields.2.2.1, hnorm.1, ?_, card, hcard, hfields.2.2.2⟩
    intro c hc
    rw [hdata] at hc
    exact hsdigits.2 c (mem_trimChars _ c hc)
  · intro pre post c h1 h2
    have hoc : cardOnclick c = "" := by
      simp [cardOnclick, h1, h2]
    have hnone : parseListCard uf cidadeId page c = none := by
      simp only [parseListCard, hoc]
      rfl
    unfold parseListPageHtml
    rw [List.filterMap_append, List.filterMap_append, List.filterMap_cons_none hnone]

/-- The item parsed from the first C9 card (reused as a C4 witness input). -/
def c4Item : ImovelListItem :=
  { imovelId := "10", uf := "RJ", cidadeId := "1", titulo := "a", modalidade := none,
    tipoImovel := none, areaUtilM2 := none, quartos := none, vagas := none,
    valorAvaliacao := none, valorMinimo := none, descontoPercent := none,
    enderecoRaw := none, observacoesRaw := none, page := 1 }

/-- Witness for C4 on a concrete card. -/
theorem c4_list_page_items_witness :
    c4Item ∈ parseListPageHtml [c9CardA] "RJ" "1" 1 ∧
    c4Item.uf = "RJ" ∧ c4Item.page = 1 ∧ c4Item.imovelId ≠ "" := by
  have h := (c4_list_page_items "RJ" "1" 1).1 [c9CardA] c4Item (by decide)
  exact ⟨by decide, h.1, h.2.2.1, h.2.2.2.1⟩

/-! ## Helper lemmas for the detail-page parser (C5) -/

/-- Either form of an absolute URL the code can produce: an `http(s)://`
prefix (case-insensitive) or any scheme-qualified string. -/
def isAbsoluteUrl (u : String) : Bool :=
  startsWithHttpScheme u || hasUrlScheme u

theorem hasUrlScheme_https_colon (rest : List Char) :
    hasUrlScheme (String.mk ("https:".data ++ rest)) = true := rfl

theorem hasUrlScheme_base_append (rest : List Char) :
    hasUrlScheme (String.mk (detailBase.data ++ rest)) = true := rfl

theorem toAbsolute_absolute (rel : String) :
    isAbsoluteUrl (toAbsolute detailBase rel) = true := by
  unfold toAbsolute
  by_cases h1 : startsWithHttpScheme rel = true
  · rw [if_pos h1]
    simp [isAbsoluteUrl, h1]
  · rw [if_neg (by simpa using h1)]
    unfold jsNewUrl
    by_cases h2 : hasUrlScheme rel = true
    · rw [if_pos h2]
      simp [isAbsoluteUrl, h2]
    · rw [if_neg (by simpa using h2)]
      by_cases h3 : startsWithChars rel.data "//".data = true
      · rw [if_pos h3]
        unfold isAbsoluteUrl
        rw [hasUrlScheme_https_colon, Bool.or_true]
      · rw [if_neg (by simpa using h3)]
        by_cases h4 : startsWithChars rel.data "/".data = true
        · rw [if_pos h4]
          unfold isAbsoluteUrl
          rw [hasUrlScheme_base_append, Bool.or_true]
        · rw [if_neg (by simpa using h4)]
          unfold isAbsoluteUrl
          rw [hasUrlScheme_base_append ('/' :: rel.data), Bool.or_true]

theorem mem_dedupFirstGo (l : List String) :
    ∀ (seen : List String) (x : String), x ∈ dedupFirstGo seen l → x ∈ l := by
  induction l with
  | nil => intro seen x h; exact absurd h (by simp [dedupFirstGo])
  | cons s rest ih =>
    intro seen x h
    rw [dedupFirstGo] at h
    by_cases hs : seen.contains s = true
    · rw [if_pos hs] at h
      exact List.mem_cons_of_mem s (ih seen x h)
    · rw [if_neg hs] at h
      rcases List.mem_cons.mp h with hh | hh
      · rw [hh]; exact List.mem_cons_self s rest
      · exact List.mem_cons_of_mem s (ih (s :: seen) x hh)

theorem mem_uniqStrings (L : List String) (x : String) (h : x ∈ uniqStrings L) :
    ∃ s ∈ L, x = String.mk (trimChars s.data) ∧ x ≠ "" := by
  unfold uniqStrings at h
  have h1 := mem_dedupFirstGo _ [] x h
  rw [List.mem_filter] at h1
  obtain ⟨s, hs, hx⟩ := List.mem_map.mp h1.1
  exact ⟨s, hs, hx.symm, by simpa using h1.2⟩

theorem mem_galeriaSrcs_fotos (doc : DetailDoc) (s : String) (h : s ∈ galeriaSrcsOf doc) :
    containsSub s.data "/fotos/".data = true := by
  unfold galeriaSrcsOf at h
  rw [List.mem_flatten] at h
  obtain ⟨L, hL, hsL⟩ := h
  obtain ⟨img, _, hLimg⟩ := List.mem_map.mp hL
  rw [← hLimg] at hsL
  unfold galImgSrcs at hsL
  rcases List.mem_append.mp hsL with hh | hh
  · rcases himg : img.src with _ | src
    · rw [himg] at hh; exact absurd hh (by simp)
    · rw [himg] at hh
      dsimp only at hh
      by_cases hcond : src ≠ "" ∧ containsSub src.data "/fotos/".data = true
      · rw [if_pos hcond] at hh
        have : s = src := by simpa using hh
        rw [this]
        exact hcond.2
      · rw [if_neg hcond] at hh
        exact absurd hh (by simp)
  · rcases hscan :
        (match scanFirst (tryPvwSrc '"') (img.onclick.getD "").data with
          | some p => some p
          | none => scanFirst (tryPvwSrc '\'') (img.onclick.getD "").data) with _ | p
    · rw [hscan] at hh; exact absurd hh (by simp)
    · rw [hscan] at hh
      dsimp only at hh
      by_cases hcond : containsSub p.data "/fotos/".data = true
      · rw [if_pos hcond] at hh
        have : s = p := by simpa using hh
        rw [this]
        exact hcond
      · rw [if_neg hcond] at hh
        exact absurd hh (by simp)

/-- C5 (amended): the matrícula link, when present, is an absolute URL
(relative paths are resolved against the fixed base); the gallery URL list
is exactly the deduplicated trimmed sources resolved against the base —
deduplication happens on the source strings before resolution, so equal
absolute URLs can repeat — every gallery URL is absolute and comes from an
extracted source containing `/fotos/`; and the filename list keeps, for
each gallery URL, the last nonempty slash-separated segment after stripping
the query string, dropping empty results. -/
theorem c5_detail_page_extract :
    (∀ doc : DetailDoc,
      (parseDetailPageHtml doc).matriculaPdfUrl = truthyOpt (matriculaUrlOf doc)) ∧
    (∀ (doc : DetailDoc) (u : String), (parseDetailPageHtml doc).matriculaPdfUrl = some u →
      isAbsoluteUrl u = true) ∧
    (∀ p : String, startsWithHttpScheme p = false → hasUrlScheme p = false →
      startsWithChars p.data "//".data = false → startsWithChars p.data "/".data = true →
      toAbsolute detailBase p = String.mk (detailBase.data ++ p.data)) ∧
    (∀ doc : DetailDoc, (parseDetailPageHtml doc).galeriaFotoUrls =
      (if galleryUrls doc ≠ [] then some (galleryUrls doc) else none) ∧
      galleryUrls doc = (uniqStrings (galeriaSrcsOf doc)).map (toAbsolute detailBase)) ∧
    (∀ (doc : DetailDoc) (u : String), u ∈ galleryUrls doc →
      isAbsoluteUrl u = true ∧
      ∃ s ∈ galeriaSrcsOf doc, containsSub s.data "/fotos/".data = true ∧
        u = toAbsolute detailBase (String.mk (trimChars s.data))) ∧
    (∀ doc : DetailDoc, (parseDetailPageHtml doc).galeriaFotoFilenames =
      (if galleryFilenames doc ≠ [] then some (galleryFilenames doc) else none) ∧
      galleryFilenames doc =
        ((galleryUrls doc).map lastSegmentNoQuery).filter (fun s => s ≠ "")) := by
  refine ⟨fun doc => rfl, ?_, ?_, fun doc => ⟨rfl, rfl⟩, ?_, fun doc => ⟨rfl, rfl⟩⟩
  · intro doc u h
    have hfield : truthyOpt (matriculaUrlOf doc) = some u := h
    have hm : matriculaUrlOf doc = some u := by
      rcases hmu : matriculaUrlOf doc with _ | v
      · rw [hmu] at hfield; exact absurd hfield (by simp [truthyOpt])
      · rw [hmu] at hfield
        unfold truthyOpt at hfield
        dsimp only at hfield
        by_cases hv : v = ""
        · rw [if_pos hv] at hfield; exact absurd hfield (by simp)
        · rw [if_neg hv] at hfield
          exact hfield
    unfold matriculaUrlOf at hm
    rcases hscan :
        (match scanFirst tryExibeDocSq (matriculaOnclick doc).data with
          | some p => some p
          | none => scanFirst tryExibeDocDq (matriculaOnclick doc).data) with _ | p
    · rw [hscan] at hm
      dsimp only at hm
      rcases hh : doc.pdfHref with _ | href
      · rw [hh] at hm; exact absurd hm (by simp)
      · rw [hh] at hm
        dsimp only at hm
        by_cases hne : href ≠ ""
        · rw [if_pos hne] at hm
          have : toAbsolute detailBase href = u := Option.some.inj hm
          rw [← this]
          exact toAbsolute_absolute href
        · rw [if_neg hne] at hm
          exact absurd hm (by simp)
    · rw [hscan] at hm
      dsimp only at hm
      have : toAbsolute detailBase p = u := Option.some.inj hm
      rw [← this]
      exact toAbsolute_absolute p
  · intro p h1 h2 h3 h4
    unfold toAbsolute jsNewUrl
    rw [if_neg (by simp [h1]), if_neg (by simp [h2]), if_neg (by simp [h3]), if_pos h4]
  · intro doc u hu
    obtain ⟨x, hx, hux⟩ := List.mem_map.mp hu
    obtain ⟨s, hs, hxs, _⟩ := mem_uniqStrings _ x hx
    refine ⟨by rw [← hux]; exact toAbsolute_absolute x, s, hs, mem_galeriaSrcs_fotos doc s hs, ?_⟩
    rw [← hux, hxs]

/-- Detail document used by the C5 counterexample: the same photo appears
once as a root-relative source and once as an already absolute source. -/
def c5Doc : DetailDoc :=
  { exibeDocOnclick := none, baixarMatriculaOnclick := none, pdfHref := none,
    galeriaImgs := [⟨some "/fotos/a.jpg", none⟩,
      ⟨some "https://venda-imoveis.caixa.gov.br/fotos/a.jpg", none⟩],
    strongValue := fun _ => none, relatedBoxText := none, enderecoPText := none,
    descricaoPText := none }

/-- Counterexample to C5 as stated: deduplication happens before
resolution, so `galeriaFotoUrls` contains the same absolute URL twice. -/
theorem c5_detail_page_extract_counterexample :
    (parseDetailPageHtml c5Doc).galeriaFotoUrls =
      some ["https://venda-imoveis.caixa.gov.br/fotos/a.jpg",
        "https://venda-imoveis.caixa.gov.br/fotos/a.jpg"] ∧
    ¬ (["https://venda-imoveis.caixa.gov.br/fotos/a.jpg",
        "https://venda-imoveis.caixa.gov.br/fotos/a.jpg"] : List String).Nodup := by
  exact ⟨by decide, by decide⟩

/-- Witness for C5 on the concrete document. -/
theorem c5_detail_page_extract_witness :
    isAbsoluteUrl "https://venda-imoveis.caixa.gov.br/fotos/a.jpg" = true ∧
    toAbsolute detailBase "/fotos/a.jpg" =
      String.mk (detailBase.data ++ "/fotos/a.jpg".data) := by
  constructor
  · exact (c5_detail_page_extract.2.2.2.2.1 c5Doc
      "https://venda-imoveis.caixa.gov.br/fotos/a.jpg" (by decide)).1
  · exact c5_detail_page_extract.2.2.1 "/fotos/a.jpg" (by decide) (by decide) (by decide)
      (by decide)

end Scraper
